import Mathlib

/-!
Verification development for the jotai-zustand atomic-store library.

The library wires a Zustand-style store definition (plain base values,
getter-defined derived values, method-defined actions) into a graph of
jotai atoms.  The observable semantics of a constructed store is that of
the jotai vanilla store: per-atom cached value, epoch counter, recorded
dependency epochs, lazy recomputation when a recorded dependency's epoch
differs, `Object.is` short-circuit on writes, and no cycle detection
(a dependency cycle recurses until the call stack is exhausted, as the
repository's own tests assert with `/stack size exceeded/`).

We model this with a fueled interpreter over an explicit atom graph.
User getter bodies and action bodies are embedded as free-monad style
programs whose only effects are field reads (getters) or field
reads/writes plus a returned partial update (actions); this is exactly
the interface the library hands user code through its `wrap` state view.
Getter executions are recorded in an event log (`tick`), modelling the
observable fact that the user getter function body ran (the repository's
tests observe this via `computeCount` side effects).

Both implementations of `createAtomicStore` are embedded:
  - `build1`: one primitive atom per base field (src/src/atomicStore.ts);
  - `build2`: a single root atom holding all base values, with one
    read-write atom per base field projecting/merging the root
    (the unnamed source file's variant).
The `atomicStoreFromZustand` adapter is embedded as well, including its
internal mutable closure snapshot.
-/

/-- JavaScript runtime values as far as the store can observe them.
`prim` carries primitive values (numbers, strings, ...) compared by
`Object.is`, which on primitives is plain equality of `V`.  `obj` is a
heap object; `Object.is` on objects is reference identity, modelled by a
stamp allocated at object-creation time.  `sym` is the module-level
`ACTION` symbol of the first implementation, `jnull` the `null` initial
value of action atoms in the second, `func` a function value (identified
by a definition-time id), `undef` is `undefined`. -/
inductive JVal (K V : Type) where
  | prim (v : V)
  | obj (stamp : Nat) (fields : List (K × JVal K V))
  | sym
  | jnull
  | func (id : Nat)
  | undef

/-- The `Object.is` comparison used by jotai to decide whether a written
or recomputed value changed.  On primitives it is value equality, on
objects reference (stamp) identity; it never inspects object contents. -/
def objectIs {K V : Type} [DecidableEq V] : JVal K V → JVal K V → Bool
  | .prim a, .prim b => decide (a = b)
  | .obj s _, .obj t _ => decide (s = t)
  | .sym, .sym => true
  | .jnull, .jnull => true
  | .func i, .func j => decide (i = j)
  | .undef, .undef => true
  | _, _ => false

/-- Errors the embedded code can raise: JavaScript stack exhaustion
(`RangeError: Maximum call stack size exceeded`, the observed outcome of
a dependency cycle) and ordinary thrown `Error`s carrying a message
(the `wrap` state view throws on writes to non-base fields). -/
inductive Err where
  | stackOverflow
  | jsError (msg : String)
deriving DecidableEq

/-- Identities of the jotai atoms a constructed store can contain:
the per-field atoms produced for base, derived and action fields, and
the single root atom of the second implementation. -/
inductive AtomId (K : Type) where
  | base (k : K)
  | drv (k : K)
  | act (k : K)
  | root
deriving DecidableEq

/-- Per-atom state held by the jotai store: current value, epoch counter
(bumped exactly when the value changes per `Object.is`), and the
dependencies recorded at the last computation, each with the dependency's
epoch at read time. -/
structure AtomState (K V : Type) where
  value : JVal K V
  epoch : Nat
  deps : List (AtomId K × Nat)

/-- Global jotai store state: lazily initialized per-atom states, a
fresh-stamp counter for object allocation, and the event log of user
getter executions. -/
structure St (K V : Type) where
  states : AtomId K → Option (AtomState K V)
  nextStamp : Nat
  log : List K

/-- Replace one atom's state. -/
def St.put {K V : Type} [DecidableEq K] (σ : St K V) (i : AtomId K)
    (st : AtomState K V) : St K V :=
  { σ with states := fun j => if j = i then some st else σ.states j }

/-- Current epoch of an atom (0 if uninitialized). -/
def epochOf {K V : Type} (σ : St K V) (i : AtomId K) : Nat :=
  match σ.states i with
  | some st => st.epoch
  | none => 0

/-- Append a getter-execution event to the log. -/
def St.tickLog {K V : Type} (σ : St K V) (k : K) : St K V :=
  { σ with log := σ.log ++ [k] }

/-- Body of a user getter: a synchronous computation whose only effect
is reading fields of the state view (`this.field`). -/
inductive GProg (K V : Type) where
  | ret (v : JVal K V)
  | read (k : K) (cont : JVal K V → GProg K V)

/-- Body of a user action (arguments already applied): reads fields of
the state view, assigns base fields through the view (`this.field = v`),
and finally returns either nothing or a partial-update object given as a
key/value list in `Object.entries` order. -/
inductive AProg (K V : Type) where
  | ret (result : Option (List (K × JVal K V)))
  | read (k : K) (cont : JVal K V → AProg K V)
  | write (k : K) (v : JVal K V) (cont : AProg K V)

/-- A field of the store definition object, classified the way
`createAtomicStore` classifies property descriptors: a plain value
(base state), a getter (derived state), or a function value (action). -/
inductive FieldDef (K V : Type) where
  | base (v : JVal K V)
  | drvF (g : GProg K V)
  | act (a : AProg K V)

/-- A store definition object: own properties in `Object.keys` order. -/
structure Defn (K V : Type) where
  fields : List (K × FieldDef K V)

/-- Look up a field of the definition (first occurrence, as JS object
literals have unique keys). -/
def Defn.lookup {K V : Type} [DecidableEq K] (d : Defn K V) (k : K) :
    Option (FieldDef K V) :=
  (d.fields.find? (fun p => p.1 = k)).map Prod.snd

/-- Whether a definition key is a base field (`baseAtoms.has(key)`). -/
def Defn.isBase {K V : Type} [DecidableEq K] (d : Defn K V) (k : K) : Bool :=
  match d.lookup k with
  | some (.base _) => true
  | _ => false

/-- Atom-level read program: what a derived atom's `read` function does.
`get` reads another atom (recorded as a dependency), `tick` marks that a
user getter body started executing. -/
inductive RProg (K V : Type) where
  | ret (v : JVal K V)
  | get (i : AtomId K) (cont : JVal K V → RProg K V)
  | tick (k : K) (cont : RProg K V)

/-- Atom-level write program: what a writable atom's `write` function
does with an incoming value.  `mkObj` allocates a fresh object
(the `{...current, [k]: v}` spread). -/
inductive WProg (K V : Type) where
  | ret
  | get (i : AtomId K) (cont : JVal K V → WProg K V)
  | setA (i : AtomId K) (v : JVal K V) (cont : WProg K V)
  | mkObj (fields : List (K × JVal K V)) (cont : JVal K V → WProg K V)

/-- Kinds of atoms in the constructed graph: a primitive atom with an
initial value, a read-only derived atom, a read-write atom (read program
plus write program parameterized by the incoming value), and an action
atom (a writable atom whose stored read value is a sentinel that is
never overwritten). -/
inductive AtomDef (K V : Type) where
  | prim (init : JVal K V)
  | drvA (r : RProg K V)
  | rwA (r : RProg K V) (w : JVal K V → WProg K V)
  | actA (init : JVal K V)

/-- A constructed store: the atom graph, the user action bodies, the
base-key predicate (`baseAtoms.has`) and the state-view routing of the
`wrap` helper (base keys to their base atom, other declared keys to the
atom stored in `store[key]`). -/
structure CStore (K V : Type) where
  graph : AtomId K → Option (AtomDef K V)
  actions : K → Option (AProg K V)
  isBase : K → Bool
  viewTarget : K → Option (AtomId K)

/-- Fields of an object value (empty for non-objects). -/
def fieldsOf {K V : Type} : JVal K V → List (K × JVal K V)
  | .obj _ fs => fs
  | _ => []

/-- Property lookup on an object value; absent keys read as `undefined`. -/
def projF {K V : Type} [DecidableEq K] (k : K) (v : JVal K V) : JVal K V :=
  match (fieldsOf v).find? (fun p => p.1 = k) with
  | some p => p.2
  | none => (.undef)

/-- The field list of `{...current, [k]: v}`: replaces the key in place
if present (JS spread keeps the original key order), appends otherwise. -/
def assignF {K V : Type} [DecidableEq K] :
    List (K × JVal K V) → K → JVal K V → List (K × JVal K V)
  | [], k, v => [(k, v)]
  | (k', v') :: rest, k, v =>
    if k' = k then (k', v) :: rest else (k', v') :: assignF rest k v

/-- Assoc-list lookup of a JS object property (`undefined` when absent). -/
def lookupAssoc {K V : Type} [DecidableEq K]
    (l : List (K × JVal K V)) (k : K) : JVal K V :=
  match l.find? (fun p => p.1 = k) with
  | some p => p.2
  | none => (.undef)

/-- Tasks of the jotai read machinery: reading an atom, checking whether
recorded dependencies still have their recorded epochs (refreshing them
first, as jotai does), and running a derived atom's read program while
tracking dependencies. -/
inductive RTask (K V : Type) where
  | readT (i : AtomId K)
  | freshT (deps : List (AtomId K × Nat))
  | runT (p : RProg K V)

/-- Uniform outcome of a read task: resulting value (reads/runs), the
tracked dependency list (runs), the check outcome (dependency checks),
and the updated store state. -/
structure Out (K V : Type) where
  val : JVal K V
  ds : List (AtomId K × Nat)
  okB : Bool
  st : St K V

/-- Commit a recomputation result, jotai's `setAtomStateValueIfChanged`:
the recorded dependencies are replaced, the epoch is bumped only when
the value changed per `Object.is`. -/
def commit {K V : Type} [DecidableEq K] [DecidableEq V]
    (i : AtomId K) (v : JVal K V) (ds : List (AtomId K × Nat))
    (σ : St K V) : Out K V :=
  match σ.states i with
  | some stOld =>
    if objectIs stOld.value v then
      ⟨stOld.value, [], true, σ.put i ⟨stOld.value, stOld.epoch, ds⟩⟩
    else
      ⟨v, [], true, σ.put i ⟨v, stOld.epoch + 1, ds⟩⟩
  | none => ⟨v, [], true, σ.put i ⟨v, 0, ds⟩⟩

/-- The jotai vanilla-store read machinery (unmounted atoms, i.e. the
`store.get`/`store.set` interface the repository's tests exercise),
as a fueled interpreter.  Fuel models the JavaScript call stack: jotai
has no cycle detection, so a dependency cycle consumes fuel until
`stackOverflow`, matching the `stack size exceeded` the tests assert.
Reading a primitive (or action) atom returns its stored value,
initializing it lazily.  Reading a derived atom returns the cached value
when every recorded dependency, after being refreshed recursively, still
has its recorded epoch; otherwise the read program is re-run with
dependency tracking and the result committed. -/
def step {K V : Type} [DecidableEq K] [DecidableEq V] :
    Nat → CStore K V → St K V → RTask K V → Except Err (Out K V)
  | 0, _, _, _ => .error .stackOverflow
  | f + 1, S, σ, t =>
    match t with
    | .readT i =>
      match S.graph i with
      | none => .error (.jsError "no such atom")
      | some (.prim init) | some (.actA init) =>
        match σ.states i with
        | some st => .ok ⟨st.value, [], true, σ⟩
        | none => .ok ⟨init, [], true, σ.put i ⟨init, 0, []⟩⟩
      | some (.drvA r) | some (.rwA r _) =>
        match σ.states i with
        | none => do
          let o ← step f S σ (.runT r)
          .ok (commit i o.val o.ds o.st)
        | some st => do
          let c ← step f S σ (.freshT st.deps)
          if c.okB then .ok ⟨st.value, [], true, c.st⟩
          else do
            let o ← step f S c.st (.runT r)
            .ok (commit i o.val o.ds o.st)
    | .freshT [] => .ok ⟨.undef, [], true, σ⟩
    | .freshT ((j, e) :: rest) => do
      let o ← step f S σ (.readT j)
      if epochOf o.st j = e then step f S o.st (.freshT rest)
      else .ok ⟨.undef, [], false, o.st⟩
    | .runT (.ret v) => .ok ⟨v, [], true, σ⟩
    | .runT (.tick k c) => step f S (σ.tickLog k) (.runT c)
    | .runT (.get i c) => do
      let o ← step f S σ (.readT i)
      let o2 ← step f S o.st (.runT (c o.val))
      .ok ⟨o2.val, (i, epochOf o.st i) :: o2.ds, true, o2.st⟩

/-- Tasks of the jotai write machinery: writing a value to an atom,
running a writable atom's write program, running a user action body
against the `wrap(get, set)` state view, and applying a returned
partial update to the base atoms (`if (baseAtoms.has(key)) set(...)`). -/
inductive WTask (K V : Type) where
  | setT (i : AtomId K) (v : JVal K V)
  | runWT (w : WProg K V)
  | bodyT (p : AProg K V)
  | applyT (entries : List (K × JVal K V))

/-- Outcome of a write task: the action body's returned partial update
(if any) and the updated store state. -/
structure WOut (K V : Type) where
  res : Option (List (K × JVal K V))
  st : St K V

/-- The jotai write machinery.  Writing a primitive atom stores the value
and bumps its epoch unless the new value is `Object.is`-equal to the
current one, in which case the state is left untouched; writing a
read-write atom runs its write program.  Action bodies read fields
through the state view routing and may assign base fields through it;
assigning a non-base field throws the `wrap` setter's error. -/
def wstep {K V : Type} [DecidableEq K] [DecidableEq V] :
    Nat → CStore K V → St K V → WTask K V → Except Err (WOut K V)
  | 0, _, _, _ => .error .stackOverflow
  | f + 1, S, σ, t =>
    match t with
    | .setT i v =>
      match S.graph i with
      | some (.prim _) =>
        match σ.states i with
        | some st =>
          if objectIs st.value v then .ok ⟨none, σ⟩
          else .ok ⟨none, σ.put i ⟨v, st.epoch + 1, []⟩⟩
        | none => .ok ⟨none, σ.put i ⟨v, 1, []⟩⟩
      | some (.rwA _ w) => wstep f S σ (.runWT (w v))
      | some (.drvA _) => .error (.jsError "atom not writable")
      | some (.actA _) => .error (.jsError "atom not writable")
      | none => .error (.jsError "no such atom")
    | .runWT .ret => .ok ⟨none, σ⟩
    | .runWT (.get i c) => do
      let o ← step f S σ (.readT i)
      wstep f S o.st (.runWT (c o.val))
    | .runWT (.setA i v c) => do
      let o ← wstep f S σ (.setT i v)
      wstep f S o.st (.runWT c)
    | .runWT (.mkObj fs c) =>
      wstep f S { σ with nextStamp := σ.nextStamp + 1 }
        (.runWT (c (.obj σ.nextStamp fs)))
    | .bodyT (.ret res) => .ok ⟨res, σ⟩
    | .bodyT (.read k c) =>
      match S.viewTarget k with
      | some i => do
        let o ← step f S σ (.readT i)
        wstep f S o.st (.bodyT (c o.val))
      | none => wstep f S σ (.bodyT (c .undef))
    | .bodyT (.write k v c) =>
      if S.isBase k then do
        let o ← wstep f S σ (.setT (.base k) v)
        wstep f S o.st (.bodyT c)
      else .error (.jsError "Cannot set value for derived state or actions")
    | .applyT [] => .ok ⟨none, σ⟩
    | .applyT ((k, v) :: rest) =>
      if S.isBase k then do
        let o ← wstep f S σ (.setT (.base k) v)
        wstep f S o.st (.applyT rest)
      else wstep f S σ (.applyT rest)

/-- Invoking an action atom (`jotai.set(store.someAction, ...args)`):
run the user action body against the state view, then, if it returned a
partial-update object, apply each entry whose key names a base field. -/
def invokeAct {K V : Type} [DecidableEq K] [DecidableEq V]
    (f : Nat) (S : CStore K V) (σ : St K V) (k : K) :
    Except Err (St K V) :=
  match S.actions k with
  | none => .error (.jsError "no such action")
  | some p => do
    let o ← wstep f S σ (.bodyT p)
    match o.res with
    | none => .ok o.st
    | some es => do
      let o2 ← wstep f S o.st (.applyT es)
      .ok o2.st

/-- Reading a field's atom from outside (`jotai.get(store.field)`). -/
def readField {K V : Type} [DecidableEq K] [DecidableEq V]
    (f : Nat) (S : CStore K V) (σ : St K V) (k : K) :
    Except Err (JVal K V × St K V) :=
  match S.viewTarget k with
  | some i => (step f S σ (.readT i)).map (fun o => (o.val, o.st))
  | none => .error (.jsError "no such field")

/-- Writing a base field's atom from outside
(`jotai.set(store.field, v)`). -/
def writeField {K V : Type} [DecidableEq K] [DecidableEq V]
    (f : Nat) (S : CStore K V) (σ : St K V) (k : K) (v : JVal K V) :
    Except Err (St K V) :=
  (wstep f S σ (.setT (.base k) v)).map WOut.st

/-- State-view routing of the `wrap` helper: a base key resolves to its
base atom (`baseAtoms.get(pk)`), any other declared key to the atom
stored in `store[pk]` (the derived atom or the action atom); keys absent
from the definition are not properties of the view and read as
`undefined`. -/
def viewT {K V : Type} [DecidableEq K] (d : Defn K V) (k : K) :
    Option (AtomId K) :=
  match d.lookup k with
  | some (.base _) => some (.base k)
  | some (.drvF _) => some (.drv k)
  | some (.act _) => some (.act k)
  | none => none

/-- Compile a getter body to an atom-level read program by routing each
field read through the state view. -/
def compileGP {K V : Type} (vt : K → Option (AtomId K)) :
    GProg K V → RProg K V
  | .ret v => .ret v
  | .read k c =>
    match vt k with
    | some i => .get i (fun v => compileGP vt (c v))
    | none => compileGP vt (c .undef)

/-- The action bodies declared by the definition. -/
def actionsOf {K V : Type} [DecidableEq K] (d : Defn K V) (k : K) :
    Option (AProg K V) :=
  match d.lookup k with
  | some (.act a) => some a
  | _ => none

/-- First implementation of `createAtomicStore`
(src/src/atomicStore.ts): one primitive jotai atom per base field,
one derived atom per getter (`atom(get => getter.call(wrap(get)))`),
one writable action atom per method with the `ACTION` symbol as its
stored read value.  No user code runs during construction. -/
def graph1 {K V : Type} [DecidableEq K] (d : Defn K V) :
    AtomId K → Option (AtomDef K V)
  | .base k =>
    match d.lookup k with
    | some (.base v) => some (.prim v)
    | _ => none
  | .drv k =>
    match d.lookup k with
    | some (.drvF g) => some (.drvA (.tick k (compileGP (viewT d) g)))
    | _ => none
  | .act k =>
    match d.lookup k with
    | some (.act _) => some (.actA .sym)
    | _ => none
  | .root => none

/-- First implementation of `createAtomicStore`, continued: assembles
the store record.  Construction runs no user code. -/
def createAtomicStore {K V : Type} [DecidableEq K] (d : Defn K V) :
    CStore K V :=
  { graph := graph1 d,
    actions := actionsOf d,
    isBase := d.isBase,
    viewTarget := viewT d }

/-- Initial jotai store state for the first implementation. -/
def initSt {K V : Type} : St K V :=
  { states := fun _ => none, nextStamp := 0, log := [] }

/-- Evaluation of a getter body against the raw definition object, with
`this` bound to the definition literal itself.  This is what
`Object.entries(initial)` triggers in the second implementation:
property access on a base key yields the raw value, on a getter key
invokes that getter recursively (logging its execution), on an action
key yields the function value.  Fuel models the call stack. -/
def evalRaw {K V : Type} [DecidableEq K] (d : Defn K V) :
    Nat → GProg K V → Except Err (JVal K V × List K)
  | 0, _ => .error .stackOverflow
  | _ + 1, .ret v => .ok (v, [])
  | f + 1, .read k c =>
    match d.lookup k with
    | some (.base v) => evalRaw d f (c v)
    | some (.drvF g) => do
      let (v, l1) ← evalRaw d f g
      let (r, l2) ← evalRaw d f (c v)
      .ok (r, k :: l1 ++ l2)
    | some (.act _) => evalRaw d f (c (.func 0))
    | none => evalRaw d f (c .undef)

/-- Getter executions triggered by one `Object.entries(initial)` pass:
every own enumerable property is evaluated in key order, which invokes
each getter once (plus whatever getters it reads on the raw object). -/
def entriesLogGo {K V : Type} [DecidableEq K] (d : Defn K V) (f : Nat) :
    List (K × FieldDef K V) → Except Err (List K)
  | [] => .ok []
  | (k, fd) :: rest =>
    match fd with
    | .drvF g => do
      let (_, l) ← evalRaw d f g
      let l2 ← entriesLogGo d f rest
      .ok (k :: l ++ l2)
    | _ => entriesLogGo d f rest

/-- One `Object.entries(initial)` pass over the whole definition. -/
def entriesLog {K V : Type} [DecidableEq K] (d : Defn K V) (f : Nat) :
    Except Err (List K) :=
  entriesLogGo d f d.fields

/-- The base-field name/value pairs of the definition, in key order
(the `baseValues` record of the second implementation). -/
def baseFieldsOf {K V : Type} (d : Defn K V) : List (K × JVal K V) :=
  d.fields.filterMap (fun p =>
    match p.2 with
    | .base v => some (p.1, v)
    | _ => none)

/-- Second implementation of `createAtomicStore` (the unnamed source
file's variant): all base values live in one root atom holding a record;
each base field becomes a read-write atom projecting the root on read
and replacing the root with `{...current, [k]: update}` on write; action
atoms store `null`.  Construction iterates `Object.entries(initial)`
twice (once in the base-values loop, once in the action loop), which
invokes every getter against the raw definition object both times; a
getter that throws or recurses forever therefore fails construction.
Returns the constructed store and the initial state, whose log records
the construction-time getter executions. -/
def graphV2 {K V : Type} [DecidableEq K] (d : Defn K V) :
    AtomId K → Option (AtomDef K V)
  | .root => some (.prim (.obj 0 (baseFieldsOf d)))
  | .base k =>
    match d.lookup k with
    | some (.base _) =>
      some (.rwA (.get .root (fun rv => .ret (projF k rv)))
        (fun v => .get .root (fun rv =>
          .mkObj (assignF (fieldsOf rv) k v) (fun o =>
            .setA .root o .ret))))
    | _ => none
  | .drv k =>
    match d.lookup k with
    | some (.drvF g) => some (.drvA (.tick k (compileGP (viewT d) g)))
    | _ => none
  | .act k =>
    match d.lookup k with
    | some (.act _) => some (.actA .jnull)
    | _ => none

/-- Second implementation of `createAtomicStore`, continued: runs the
two `Object.entries` passes and assembles store plus initial state. -/
def createAtomicStoreV2 {K V : Type} [DecidableEq K] (f : Nat)
    (d : Defn K V) : Except Err (CStore K V × St K V) := do
  let l1 ← entriesLog d f
  let l2 ← entriesLog d f
  let S : CStore K V :=
    { graph := graphV2 d,
      actions := actionsOf d,
      isBase := d.isBase,
      viewTarget := viewT d }
  let σ0 : St K V := { states := fun _ => none, nextStamp := 1, log := l1 ++ l2 }
  .ok (S, σ0)

/-- Body of a zustand-style action: reads fields through the creator's
captured `get()`, merges partial updates into the captured mutable state
via `set` (`Object.assign(state, partial)`), and returns either
`undefined` (`zdone false`) or the state object itself (`zdone true`,
the value `set(...)` returns and arrow-bodied actions forward). -/
inductive ZAct (K V : Type) where
  | zget (k : K) (cont : JVal K V → ZAct K V)
  | zset (entries : List (K × JVal K V)) (cont : ZAct K V)
  | zdone (returnsState : Bool)

/-- A field of a zustand store definition: a plain value or an action. -/
inductive ZField (K V : Type) where
  | zbase (v : JVal K V)
  | zact (a : ZAct K V)

/-- A zustand store definition (the object the creator returns). -/
structure ZDefn (K V : Type) where
  fields : List (K × ZField K V)

/-- Look up a zustand definition field. -/
def ZDefn.lookup {K V : Type} [DecidableEq K] (zd : ZDefn K V) (k : K) :
    Option (ZField K V) :=
  (zd.fields.find? (fun p => p.1 = k)).map Prod.snd

/-- `Object.assign(state, partial)`: merge entries left to right. -/
def assignAll {K V : Type} [DecidableEq K]
    (ς : List (K × JVal K V)) : List (K × JVal K V) → List (K × JVal K V)
  | [] => ς
  | (k, v) :: rest => assignAll (assignF ς k v) rest

/-- Run a zustand action against the adapter's closure state: `get()`
reads the closure, `set` merges into it.  Returns the final closure and
the action's return value interpreted by the adapter wrapper
(`undefined` becomes no update; returning the state object yields its
entries as the partial update). -/
def runZ {K V : Type} [DecidableEq K] :
    ZAct K V → List (K × JVal K V) →
    List (K × JVal K V) × Option (List (K × JVal K V))
  | .zdone b, ς => (ς, if b then some ς else none)
  | .zget k c, ς => runZ (c (lookupAssoc ς k)) ς
  | .zset es c, ς => runZ c (assignAll ς es)

/-- The atomic-store definition `atomicStoreFromZustand` constructs:
plain values become base fields; function values become actions.
The wrapped action closures never touch the state view the wiring hands
them (they close over the adapter's own `state`/`set`/`get`), so their
bodies are opaque to `createAtomicStore`; invocation is modelled by
`invokeZ` below and the placeholder body here is never consulted. -/
def zBaseDefn {K V : Type} (zd : ZDefn K V) : Defn K V :=
  ⟨zd.fields.map (fun p =>
    (p.1,
      match p.2 with
      | .zbase v => FieldDef.base v
      | .zact _ => FieldDef.act (.ret none)))⟩

/-- The adapter's initial closure state: every non-function value of the
zustand definition, keyed as written (`state[typedKey] = value`). -/
def zClosure0 {K V : Type} (zd : ZDefn K V) : List (K × JVal K V) :=
  zd.fields.filterMap (fun p =>
    match p.2 with
    | .zbase v => some (p.1, v)
    | _ => none)

/-- `atomicStoreFromZustand`: build the atomic store over the converted
definition, together with the adapter's mutable closure state. -/
def atomicStoreFromZustand {K V : Type} [DecidableEq K] (zd : ZDefn K V) :
    CStore K V × List (K × JVal K V) :=
  (createAtomicStore (zBaseDefn zd), zClosure0 zd)

/-- Invoking an adapter-wrapped action: the zustand action body runs
against the adapter's closure state only; if it returned the state
object, the wiring applies that object's entries to the base atoms. -/
def invokeZ {K V : Type} [DecidableEq K] [DecidableEq V] (f : Nat)
    (zd : ZDefn K V) (S : CStore K V) (σ : St K V)
    (ς : List (K × JVal K V)) (k : K) :
    Except Err (St K V × List (K × JVal K V)) :=
  match zd.lookup k with
  | some (.zact a) =>
    let (ς2, res) := runZ a ς
    match res with
    | none => .ok (σ, ς2)
    | some es => do
      let o ← wstep f S σ (.applyT es)
      .ok (o.st, ς2)
  | _ => .error (.jsError "no such action")

/-- Key names used by the concrete stores below. -/
inductive Key where
  | kbase | kdouble | kquad | kx | ky | ka | kb | ksum
  | kcount | ktotal | kupd | kinc
deriving DecidableEq

/-- Multiply a primitive number value by a constant (`this.f * n`). -/
def mulJ {K : Type} : JVal K Int → Int → JVal K Int
  | .prim n, m => .prim (n * m)
  | _, _ => (.undef)

/-- Add two primitive number values (`this.f + this.g`). -/
def addJ {K : Type} : JVal K Int → JVal K Int → JVal K Int
  | .prim n, .prim m => .prim (n + m)
  | _, _ => (.undef)

/-- Add a constant to a primitive number value (`this.f + n`). -/
def addJc {K : Type} : JVal K Int → Int → JVal K Int
  | .prim n, m => .prim (n + m)
  | _, _ => (.undef)

/-- Extract a primitive value. -/
def primOf {K V : Type} : JVal K V → Option V
  | .prim v => some v
  | _ => none

/-- Extract the error of a failed computation. -/
def errOf {A : Type} : Except Err A → Option Err
  | .error e => some e
  | .ok _ => none

/-- State after a field read (unchanged if the read failed). -/
def afterRead {K V : Type} [DecidableEq K] [DecidableEq V]
    (f : Nat) (S : CStore K V) (σ : St K V) (k : K) : St K V :=
  match readField f S σ k with
  | .ok (_, σ2) => σ2
  | .error _ => σ

/-- State after a base-field write (unchanged if the write failed). -/
def afterWrite {K V : Type} [DecidableEq K] [DecidableEq V]
    (f : Nat) (S : CStore K V) (σ : St K V) (k : K) (v : JVal K V) :
    St K V :=
  match writeField f S σ k v with
  | .ok σ2 => σ2
  | .error _ => σ

/-- State after an action invocation (unchanged if it failed). -/
def afterInvoke {K V : Type} [DecidableEq K] [DecidableEq V]
    (f : Nat) (S : CStore K V) (σ : St K V) (k : K) : St K V :=
  match invokeAct f S σ k with
  | .ok σ2 => σ2
  | .error _ => σ

/-- The spec's memoization scenario store:
`{base: 0, get double() { return this.base * 2 }}`. -/
def dDouble : Defn Key Int :=
  ⟨[(Key.kbase, FieldDef.base (JVal.prim 0)),
    (Key.kdouble,
      FieldDef.drvF (GProg.read Key.kbase (fun v => GProg.ret (mulJ v 2))))]⟩

/-- The cyclic store of the spec's cycle-detection property:
`{x: 0, get a() { return this.b }, get b() { return this.a }}`
(an unrelated base field `x` is included to check it stays readable). -/
def dCyc : Defn Key Int :=
  ⟨[(Key.kx, FieldDef.base (JVal.prim 0)),
    (Key.ka, FieldDef.drvF (GProg.read Key.kb (fun v => GProg.ret v))),
    (Key.kb, FieldDef.drvF (GProg.read Key.ka (fun v => GProg.ret v)))]⟩

/-- The spec's atomic-action scenario store: `{a: 1, b: 2,
get sum() { return this.a + this.b },
updateValues(na, nb) { return {a: na, b: nb} }}`, with the action's
arguments instantiated to `3, 4`. -/
def dSum : Defn Key Int :=
  ⟨[(Key.ka, FieldDef.base (JVal.prim 1)),
    (Key.kb, FieldDef.base (JVal.prim 2)),
    (Key.ksum,
      FieldDef.drvF (GProg.read Key.ka (fun va =>
        GProg.read Key.kb (fun vb => GProg.ret (addJ va vb))))),
    (Key.kupd,
      FieldDef.act (AProg.ret
        (some [(Key.ka, JVal.prim 3), (Key.kb, JVal.prim 4)])))]⟩

/-- The conditional-dependency store of the spec:
`{x: 0, y: 0, get a() { return this.x > 0 ? this.b : 0 },
get b() { return this.y * 2 }}`. -/
def dCond : Defn Key Int :=
  ⟨[(Key.kx, FieldDef.base (JVal.prim 0)),
    (Key.ky, FieldDef.base (JVal.prim 0)),
    (Key.ka,
      FieldDef.drvF (GProg.read Key.kx (fun vx =>
        match vx with
        | .prim n => if n > 0 then GProg.read Key.kb GProg.ret else GProg.ret (.prim 0)
        | _ => GProg.ret .undef))),
    (Key.kb,
      FieldDef.drvF (GProg.read Key.ky (fun vy => GProg.ret (mulJ vy 2))))]⟩

/-- A zustand-style counter definition for the adapter:
`(set, get) => ({count: 0, increment: (n = 1) => set({count: get().count + n})})`,
with the increment argument instantiated to `1`. -/
def zCounter : ZDefn Key Int :=
  ⟨[(Key.kcount, ZField.zbase (JVal.prim 0)),
    (Key.kinc,
      ZField.zact (ZAct.zget Key.kcount (fun c =>
        ZAct.zset [(Key.kcount, addJc c 1)] (ZAct.zdone true))))]⟩

theorem St.put_log {K V : Type} [DecidableEq K] (σ : St K V) (i : AtomId K)
    (st : AtomState K V) : (σ.put i st).log = σ.log := rfl

theorem St.put_states_ne {K V : Type} [DecidableEq K] (σ : St K V)
    (i j : AtomId K) (st : AtomState K V) (h : j ≠ i) :
    (σ.put i st).states j = σ.states j := by
  simp [St.put, h]

theorem St.put_states_self {K V : Type} [DecidableEq K] (σ : St K V)
    (i : AtomId K) (st : AtomState K V) : (σ.put i st).states i = some st := by
  simp [St.put]

theorem St.tickLog_states {K V : Type} (σ : St K V) (k : K) :
    (σ.tickLog k).states = σ.states := rfl

/-- The stored value of a primitive or action atom, counting an
uninitialized atom as holding its initial value (lazy initialization is
unobservable). -/
def baseValOf {K V : Type} (S : CStore K V) (σ : St K V) (j : AtomId K) :
    Option (JVal K V) :=
  match σ.states j with
  | some st => some st.value
  | none =>
    match S.graph j with
    | some (.prim iv) => some iv
    | some (.actA iv) => some iv
    | _ => none

/-- Whether an atom is a primitive or action atom (a value holder). -/
def isHolder {K V : Type} (S : CStore K V) (j : AtomId K) : Prop :=
  (∃ iv, S.graph j = some (.prim iv)) ∨ ∃ iv, S.graph j = some (.actA iv)

@[simp] theorem exceptBind_ok_iff {ε α β : Type} (x : Except ε α)
    (g : α → Except ε β) (b : β) :
    (x >>= g = Except.ok b) ↔ ∃ a, x = .ok a ∧ g a = .ok b := by
  cases x <;> simp [Bind.bind, Except.bind]

/-- Read of a primitive or action atom with initial value `iv`. -/
def primRead {K V : Type} [DecidableEq K] (σ : St K V) (i : AtomId K)
    (iv : JVal K V) : Except Err (Out K V) :=
  match σ.states i with
  | some st => .ok ⟨st.value, [], true, σ⟩
  | none => .ok ⟨iv, [], true, σ.put i ⟨iv, 0, []⟩⟩

/-- Read of a derived (or read-write) atom with read program `r`. -/
def drvRead {K V : Type} [DecidableEq K] [DecidableEq V] (f : Nat)
    (S : CStore K V) (σ : St K V) (i : AtomId K) (r : RProg K V) :
    Except Err (Out K V) :=
  match σ.states i with
  | none => do
    let o ← step f S σ (.runT r)
    .ok (commit i o.val o.ds o.st)
  | some st => do
    let c ← step f S σ (.freshT st.deps)
    if c.okB then .ok ⟨st.value, [], true, c.st⟩
    else do
      let o ← step f S c.st (.runT r)
      .ok (commit i o.val o.ds o.st)

theorem step_zero {K V : Type} [DecidableEq K] [DecidableEq V]
    (S : CStore K V) (σ : St K V) (t : RTask K V) :
    step 0 S σ t = .error .stackOverflow := rfl

theorem step_read_none {K V : Type} [DecidableEq K] [DecidableEq V]
    {S : CStore K V} {i : AtomId K} (f : Nat) (σ : St K V)
    (hg : S.graph i = none) :
    step (f + 1) S σ (.readT i) = .error (.jsError "no such atom") := by
  rw [step, hg]

theorem step_read_prim {K V : Type} [DecidableEq K] [DecidableEq V]
    {S : CStore K V} {i : AtomId K} {iv : JVal K V} (f : Nat) (σ : St K V)
    (hg : S.graph i = some (.prim iv)) :
    step (f + 1) S σ (.readT i) = primRead σ i iv := by
  rw [step, hg]; rfl

theorem step_read_act {K V : Type} [DecidableEq K] [DecidableEq V]
    {S : CStore K V} {i : AtomId K} {iv : JVal K V} (f : Nat) (σ : St K V)
    (hg : S.graph i = some (.actA iv)) :
    step (f + 1) S σ (.readT i) = primRead σ i iv := by
  rw [step, hg]; rfl

theorem step_read_drv {K V : Type} [DecidableEq K] [DecidableEq V]
    {S : CStore K V} {i : AtomId K} {r : RProg K V} (f : Nat) (σ : St K V)
    (hg : S.graph i = some (.drvA r)) :
    step (f + 1) S σ (.readT i) = drvRead f S σ i r := by
  rw [step, hg]; rfl

theorem step_read_rw {K V : Type} [DecidableEq K] [DecidableEq V]
    {S : CStore K V} {i : AtomId K} {r : RProg K V} {w : JVal K V → WProg K V}
    (f : Nat) (σ : St K V) (hg : S.graph i = some (.rwA r w)) :
    step (f + 1) S σ (.readT i) = drvRead f S σ i r := by
  rw [step, hg]; rfl

theorem step_fresh_nil {K V : Type} [DecidableEq K] [DecidableEq V]
    (f : Nat) (S : CStore K V) (σ : St K V) :
    step (f + 1) S σ (.freshT []) = .ok ⟨.undef, [], true, σ⟩ := rfl

theorem step_fresh_cons {K V : Type} [DecidableEq K] [DecidableEq V]
    (f : Nat) (S : CStore K V) (σ : St K V) (j : AtomId K) (e : Nat)
    (rest : List (AtomId K × Nat)) :
    step (f + 1) S σ (.freshT ((j, e) :: rest)) = (do
      let o ← step f S σ (.readT j)
      if epochOf o.st j = e then step f S o.st (.freshT rest)
      else .ok ⟨.undef, [], false, o.st⟩) := rfl

theorem step_run_ret {K V : Type} [DecidableEq K] [DecidableEq V]
    (f : Nat) (S : CStore K V) (σ : St K V) (v : JVal K V) :
    step (f + 1) S σ (.runT (.ret v)) = .ok ⟨v, [], true, σ⟩ := rfl

theorem step_run_tick {K V : Type} [DecidableEq K] [DecidableEq V]
    (f : Nat) (S : CStore K V) (σ : St K V) (k : K) (c : RProg K V) :
    step (f + 1) S σ (.runT (.tick k c)) =
      step f S (σ.tickLog k) (.runT c) := rfl

theorem step_run_get {K V : Type} [DecidableEq K] [DecidableEq V]
    (f : Nat) (S : CStore K V) (σ : St K V) (i : AtomId K)
    (c : JVal K V → RProg K V) :
    step (f + 1) S σ (.runT (.get i c)) = (do
      let o ← step f S σ (.readT i)
      let o2 ← step f S o.st (.runT (c o.val))
      .ok ⟨o2.val, (i, epochOf o.st i) :: o2.ds, true, o2.st⟩) := rfl

/-- Conclusion of the basic preservation lemma: the log only grows by a
suffix, and every value-holding (primitive/action) atom keeps its
observable value, its epoch, and any state it already had. -/
def BasicConcl {K V : Type} (S : CStore K V) (σ σ2 : St K V) : Prop :=
  (∃ Δ, σ2.log = σ.log ++ Δ) ∧
  ∀ j, isHolder S j →
    baseValOf S σ2 j = baseValOf S σ j ∧
    epochOf σ2 j = epochOf σ j ∧
    (∀ st, σ.states j = some st → σ2.states j = some st)

theorem BasicConcl.refl {K V : Type} (S : CStore K V) (σ : St K V) :
    BasicConcl S σ σ :=
  ⟨⟨[], by simp⟩, fun _ _ => ⟨rfl, rfl, fun _ h => h⟩⟩

theorem BasicConcl.trans {K V : Type} {S : CStore K V} {σ σ2 σ3 : St K V}
    (h1 : BasicConcl S σ σ2) (h2 : BasicConcl S σ2 σ3) :
    BasicConcl S σ σ3 := by
  obtain ⟨⟨d1, hl1⟩, hj1⟩ := h1
  obtain ⟨⟨d2, hl2⟩, hj2⟩ := h2
  refine ⟨⟨d1 ++ d2, by rw [hl2, hl1, List.append_assoc]⟩, fun j hj => ?_⟩
  obtain ⟨a1, b1, c1⟩ := hj1 j hj
  obtain ⟨a2, b2, c2⟩ := hj2 j hj
  exact ⟨a2.trans a1, b2.trans b1, fun st hst => c2 st (c1 st hst)⟩

theorem isHolder_ne {K V : Type} {S : CStore K V} {i j : AtomId K}
    (hj : isHolder S j) (hi : ¬ isHolder S i) : j ≠ i := by
  intro h; exact hi (h ▸ hj)

theorem baseValOf_put_ne {K V : Type} [DecidableEq K] {S : CStore K V}
    {i j : AtomId K} (σ : St K V) (st : AtomState K V) (hne : j ≠ i) :
    baseValOf S (σ.put i st) j = baseValOf S σ j := by
  unfold baseValOf; rw [St.put_states_ne _ _ _ _ hne]

theorem epochOf_put_ne {K V : Type} [DecidableEq K]
    {i j : AtomId K} (σ : St K V) (st : AtomState K V) (hne : j ≠ i) :
    epochOf (σ.put i st) j = epochOf σ j := by
  unfold epochOf; rw [St.put_states_ne _ _ _ _ hne]

theorem BasicConcl.putNonHolder {K V : Type} [DecidableEq K]
    {S : CStore K V} {i : AtomId K} (σ : St K V) (st : AtomState K V)
    (hi : ¬ isHolder S i) : BasicConcl S σ (σ.put i st) := by
  refine ⟨⟨[], by simp [St.put_log]⟩, fun j hj => ?_⟩
  have hne : j ≠ i := isHolder_ne hj hi
  exact ⟨baseValOf_put_ne σ st hne, epochOf_put_ne σ st hne,
    fun st2 h => by rw [St.put_states_ne _ _ _ _ hne]; exact h⟩

theorem BasicConcl.tick {K V : Type} (S : CStore K V) (σ : St K V) (k : K) :
    BasicConcl S σ (σ.tickLog k) :=
  ⟨⟨[k], rfl⟩, fun _ _ => ⟨rfl, rfl, fun _ h => h⟩⟩

theorem commit_st {K V : Type} [DecidableEq K] [DecidableEq V]
    (i : AtomId K) (v : JVal K V) (ds : List (AtomId K × Nat))
    (σ : St K V) : ∃ stN, (commit i v ds σ).st = σ.put i stN := by
  unfold commit
  split
  · split
    · exact ⟨_, rfl⟩
    · exact ⟨_, rfl⟩
  · exact ⟨_, rfl⟩

theorem drvRead_basic {K V : Type} [DecidableEq K] [DecidableEq V]
    {f : Nat} {S : CStore K V} {σ : St K V} {i : AtomId K} {r : RProg K V}
    {o : Out K V} (hne : ¬ isHolder S i)
    (ih : ∀ (σ2 : St K V) (t : RTask K V) (o2 : Out K V),
      step f S σ2 t = .ok o2 → BasicConcl S σ2 o2.st)
    (h : drvRead f S σ i r = .ok o) : BasicConcl S σ o.st := by
  unfold drvRead at h
  split at h
  · simp only [exceptBind_ok_iff] at h
    obtain ⟨a, ha, h2⟩ := h
    cases h2
    obtain ⟨stN, hc⟩ := commit_st i a.val a.ds a.st
    rw [hc]
    exact (ih σ _ a ha).trans (BasicConcl.putNonHolder _ _ hne)
  · simp only [exceptBind_ok_iff] at h
    obtain ⟨c, hc, h2⟩ := h
    split at h2
    · cases h2
      exact ih σ _ c hc
    · simp only [exceptBind_ok_iff] at h2
      obtain ⟨a, ha, h3⟩ := h2
      cases h3
      obtain ⟨stN, hcm⟩ := commit_st i a.val a.ds a.st
      rw [hcm]
      exact ((ih σ _ c hc).trans (ih c.st _ a ha)).trans
        (BasicConcl.putNonHolder _ _ hne)

theorem notHolder_of_drv {K V : Type} {S : CStore K V} {i : AtomId K}
    {r : RProg K V} (hg : S.graph i = some (.drvA r)) : ¬ isHolder S i := by
  rintro (⟨iv, hiv⟩ | ⟨iv, hiv⟩) <;> rw [hg] at hiv <;> cases hiv

theorem notHolder_of_rw {K V : Type} {S : CStore K V} {i : AtomId K}
    {r : RProg K V} {w : JVal K V → WProg K V}
    (hg : S.graph i = some (.rwA r w)) : ¬ isHolder S i := by
  rintro (⟨iv, hiv⟩ | ⟨iv, hiv⟩) <;> rw [hg] at hiv <;> cases hiv

/-- Basic preservation along the read machinery: the log only grows by
a suffix, and the value-holding atoms (base cells and action sentinels)
keep their observable value and epoch — reads never write base state. -/
theorem step_basic {K V : Type} [DecidableEq K] [DecidableEq V] :
    ∀ (f : Nat) (S : CStore K V) (σ : St K V) (t : RTask K V) (o : Out K V),
      step f S σ t = .ok o → BasicConcl S σ o.st := by
  intro f
  induction f with
  | zero => intro S σ t o h; cases h
  | succ f ih =>
    intro S σ t o h
    match t with
    | .readT i =>
      cases hgr : S.graph i with
      | none => rw [step_read_none f σ hgr] at h; cases h
      | some ad =>
        cases ad with
        | prim iv =>
          rw [step_read_prim f σ hgr] at h
          unfold primRead at h
          split at h
          · cases h; exact BasicConcl.refl S σ
          case _ hs =>
            cases h
            refine ⟨⟨[], by simp [St.put_log]⟩, fun j hj => ?_⟩
            by_cases hji : j = i
            · subst hji
              refine ⟨?_, ?_, ?_⟩
              · simp [baseValOf, hs, St.put_states_self, hgr]
              · simp [epochOf, hs, St.put_states_self]
              · intro st hst; rw [hst] at hs; cases hs
            · exact ⟨baseValOf_put_ne σ _ hji, epochOf_put_ne σ _ hji,
                fun st2 h2 => by rw [St.put_states_ne _ _ _ _ hji]; exact h2⟩
        | actA iv =>
          rw [step_read_act f σ hgr] at h
          unfold primRead at h
          split at h
          · cases h; exact BasicConcl.refl S σ
          case _ hs =>
            cases h
            refine ⟨⟨[], by simp [St.put_log]⟩, fun j hj => ?_⟩
            by_cases hji : j = i
            · subst hji
              refine ⟨?_, ?_, ?_⟩
              · simp [baseValOf, hs, St.put_states_self, hgr]
              · simp [epochOf, hs, St.put_states_self]
              · intro st hst; rw [hst] at hs; cases hs
            · exact ⟨baseValOf_put_ne σ _ hji, epochOf_put_ne σ _ hji,
                fun st2 h2 => by rw [St.put_states_ne _ _ _ _ hji]; exact h2⟩
        | drvA r =>
          rw [step_read_drv f σ hgr] at h
          exact drvRead_basic (notHolder_of_drv hgr) (ih S) h
        | rwA r w =>
          rw [step_read_rw f σ hgr] at h
          exact drvRead_basic (notHolder_of_rw hgr) (ih S) h
    | .freshT deps =>
      match deps with
      | [] => rw [step_fresh_nil] at h; cases h; exact BasicConcl.refl S σ
      | (j, e) :: rest =>
        rw [step_fresh_cons] at h
        simp only [exceptBind_ok_iff] at h
        obtain ⟨a, ha, h2⟩ := h
        split at h2
        · exact (ih S σ _ a ha).trans (ih S a.st _ o h2)
        · cases h2; exact ih S σ _ a ha
    | .runT p =>
      match p with
      | .ret v => rw [step_run_ret] at h; cases h; exact BasicConcl.refl S σ
      | .tick k c =>
        rw [step_run_tick] at h
        exact (BasicConcl.tick S σ k).trans (ih S _ _ o h)
      | .get i c =>
        rw [step_run_get] at h
        simp only [exceptBind_ok_iff] at h
        obtain ⟨a, ha, b, hb, h3⟩ := h
        cases h3
        exact (ih S σ _ a ha).trans (ih S a.st _ b hb)

/-- An atom is settled when it has a cached state whose recorded
dependencies all still carry their recorded epochs (recursively).
Settled derived atoms are exactly those whose cache jotai's dependency
check will accept without recomputation; primitive and action atoms are
settled once initialized. -/
inductive Settled {K V : Type} [DecidableEq K] [DecidableEq V]
    (S : CStore K V) (σ : St K V) : AtomId K → Prop where
  | primS : ∀ {i : AtomId K} (iv : JVal K V) (st : AtomState K V),
      S.graph i = some (.prim iv) → σ.states i = some st → Settled S σ i
  | actS : ∀ {i : AtomId K} (iv : JVal K V) (st : AtomState K V),
      S.graph i = some (.actA iv) → σ.states i = some st → Settled S σ i
  | drvS : ∀ {i : AtomId K} (r : RProg K V) (st : AtomState K V),
      S.graph i = some (.drvA r) → σ.states i = some st →
      (∀ je ∈ st.deps, Settled S σ je.1) →
      (∀ je ∈ st.deps, epochOf σ je.1 = je.2) → Settled S σ i
  | rwS : ∀ {i : AtomId K} (r : RProg K V) (w : JVal K V → WProg K V)
      (st : AtomState K V),
      S.graph i = some (.rwA r w) → σ.states i = some st →
      (∀ je ∈ st.deps, Settled S σ je.1) →
      (∀ je ∈ st.deps, epochOf σ je.1 = je.2) → Settled S σ i

theorem Settled.states_some {K V : Type} [DecidableEq K] [DecidableEq V]
    {S : CStore K V} {σ : St K V} {i : AtomId K} (h : Settled S σ i) :
    ∃ st, σ.states i = some st := by
  cases h with
  | primS iv st hg hs => exact ⟨st, hs⟩
  | actS iv st hg hs => exact ⟨st, hs⟩
  | drvS r st hg hs _ _ => exact ⟨st, hs⟩
  | rwS r w st hg hs _ _ => exact ⟨st, hs⟩

/-- Settledness only looks at atom states, so it transports along any
state change that leaves every settled atom's state untouched. -/
theorem Settled.mono_states {K V : Type} [DecidableEq K] [DecidableEq V]
    {S : CStore K V} {σ σ2 : St K V}
    (hpres : ∀ j, Settled S σ j → σ2.states j = σ.states j) :
    ∀ {i : AtomId K}, Settled S σ i → Settled S σ2 i := by
  intro i h
  induction h with
  | primS iv st hg hs =>
    exact .primS iv st hg ((hpres _ (.primS iv st hg hs)).trans hs)
  | actS iv st hg hs =>
    exact .actS iv st hg ((hpres _ (.actS iv st hg hs)).trans hs)
  | drvS r st hg hs hdep heq ih =>
    refine .drvS r st hg
      ((hpres _ (.drvS r st hg hs hdep heq)).trans hs)
      (fun je hje => ih je hje) (fun je hje => ?_)
    have : σ2.states je.1 = σ.states je.1 := hpres _ (hdep je hje)
    rw [epochOf, this, ← epochOf]
    exact heq je hje
  | rwS r w st hg hs hdep heq ih =>
    refine .rwS r w st hg
      ((hpres _ (.rwS r w st hg hs hdep heq)).trans hs)
      (fun je hje => ih je hje) (fun je hje => ?_)
    have : σ2.states je.1 = σ.states je.1 := hpres _ (hdep je hje)
    rw [epochOf, this, ← epochOf]
    exact heq je hje

/-- A failed dependency check exhibits a dependency whose current epoch
(in the state the check returned) differs from the recorded one. -/
theorem fresh_false {K V : Type} [DecidableEq K] [DecidableEq V] :
    ∀ (f : Nat) (S : CStore K V) (σ : St K V)
      (deps : List (AtomId K × Nat)) (c : Out K V),
      step f S σ (.freshT deps) = .ok c → c.okB = false →
      ∃ je ∈ deps, epochOf c.st je.1 ≠ je.2 := by
  intro f
  induction f with
  | zero => intro S σ deps c h; cases h
  | succ f ih =>
    intro S σ deps c h hb
    match deps with
    | [] => rw [step_fresh_nil] at h; cases h; cases hb
    | (j, e) :: rest =>
      rw [step_fresh_cons] at h
      simp only [exceptBind_ok_iff] at h
      obtain ⟨a, ha, h2⟩ := h
      split at h2
      case _ heq =>
        obtain ⟨je, hmem, hne⟩ := ih S a.st rest c h2 hb
        exact ⟨je, List.mem_cons_of_mem _ hmem, hne⟩
      case _ hne =>
        cases h2
        exact ⟨(j, e), List.mem_cons_self _ _, hne⟩

/-- Auxiliary step for `step_settledPres`: a derived-atom read preserves
the states of settled atoms, because a recomputation only commits to an
atom that was not settled (its dependency check failed). -/
theorem drvRead_settledPres {K V : Type} [DecidableEq K] [DecidableEq V]
    {f : Nat} {S : CStore K V} {σ : St K V} {i : AtomId K} {r : RProg K V}
    {o : Out K V}
    (hgr : S.graph i = some (.drvA r) ∨ ∃ w, S.graph i = some (.rwA r w))
    (ih : ∀ (σ2 : St K V) (t : RTask K V) (o2 : Out K V),
      step f S σ2 t = .ok o2 → ∀ l, Settled S σ2 l → o2.st.states l = σ2.states l)
    (h : drvRead f S σ i r = .ok o) :
    ∀ j, Settled S σ j → o.st.states j = σ.states j := by
  intro j hj
  unfold drvRead at h
  split at h
  case _ hs =>
    simp only [exceptBind_ok_iff] at h
    obtain ⟨a, ha, h2⟩ := h
    cases h2
    have hne : j ≠ i := by
      intro he
      obtain ⟨st, hst⟩ := hj.states_some
      rw [he, hs] at hst; cases hst
    obtain ⟨stN, hc⟩ := commit_st i a.val a.ds a.st
    rw [hc, St.put_states_ne _ _ _ _ hne]
    exact ih σ _ a ha j hj
  case _ st hs =>
    simp only [exceptBind_ok_iff] at h
    obtain ⟨c, hc, h2⟩ := h
    split at h2
    case _ hokB =>
      cases h2
      exact ih σ _ c hc j hj
    case _ hokB =>
      simp only [exceptBind_ok_iff] at h2
      obtain ⟨a, ha, h3⟩ := h2
      cases h3
      have hfp : ∀ l, Settled S σ l → c.st.states l = σ.states l :=
        fun l hl => ih σ _ c hc l hl
      have hb : c.okB = false := by
        cases hcb : c.okB
        · rfl
        · rw [hcb] at hokB; exact absurd rfl hokB
      have hmis : ∀ (st2 : AtomState K V), σ.states i = some st2 →
          (∀ je ∈ st2.deps, Settled S σ je.1) →
          (∀ je ∈ st2.deps, epochOf σ je.1 = je.2) → False := by
        intro st2 hs2 hdep heq
        rw [hs] at hs2; cases hs2
        obtain ⟨je, hmem, hnee⟩ := fresh_false f S σ _ c hc hb
        have hee : c.st.states je.1 = σ.states je.1 := hfp _ (hdep je hmem)
        rw [epochOf, hee, ← epochOf] at hnee
        exact hnee (heq je hmem)
      have hni : ¬ Settled S σ i := by
        intro hsi
        cases hsi with
        | primS iv st2 hg2 hs2 =>
          rcases hgr with hg | ⟨w2, hg⟩ <;> rw [hg] at hg2 <;> cases hg2
        | actS iv st2 hg2 hs2 =>
          rcases hgr with hg | ⟨w2, hg⟩ <;> rw [hg] at hg2 <;> cases hg2
        | drvS r2 st2 hg2 hs2 hdep heq => exact hmis st2 hs2 hdep heq
        | rwS r2 w2 st2 hg2 hs2 hdep heq => exact hmis st2 hs2 hdep heq
      have hne : j ≠ i := fun he => hni (he ▸ hj)
      have hj2 : Settled S c.st j := Settled.mono_states hfp hj
      obtain ⟨stN, hcm⟩ := commit_st i a.val a.ds a.st
      rw [hcm, St.put_states_ne _ _ _ _ hne]
      exact (ih c.st _ a ha j hj2).trans (hfp j hj)


/-- Reads never touch the state of a settled atom: the dependency check
accepts settled atoms without recomputation, and recomputation commits
only to atoms that were not settled. -/
theorem step_settledPres {K V : Type} [DecidableEq K] [DecidableEq V] :
    ∀ (f : Nat) (S : CStore K V) (σ : St K V) (t : RTask K V) (o : Out K V),
      step f S σ t = .ok o →
      ∀ j, Settled S σ j → o.st.states j = σ.states j := by
  intro f
  induction f with
  | zero => intro S σ t o h; cases h
  | succ f ih =>
    intro S σ t o h j hj
    match t with
    | .readT i =>
      cases hgr : S.graph i with
      | none => rw [step_read_none f σ hgr] at h; cases h
      | some ad =>
        cases ad with
        | prim iv =>
          rw [step_read_prim f σ hgr] at h
          unfold primRead at h
          split at h
          · cases h; rfl
          case _ hs =>
            cases h
            have hne : j ≠ i := by
              intro he
              obtain ⟨st, hst⟩ := hj.states_some
              rw [he, hs] at hst; cases hst
            exact St.put_states_ne _ _ _ _ hne
        | actA iv =>
          rw [step_read_act f σ hgr] at h
          unfold primRead at h
          split at h
          · cases h; rfl
          case _ hs =>
            cases h
            have hne : j ≠ i := by
              intro he
              obtain ⟨st, hst⟩ := hj.states_some
              rw [he, hs] at hst; cases hst
            exact St.put_states_ne _ _ _ _ hne
        | drvA r =>
          rw [step_read_drv f σ hgr] at h
          exact drvRead_settledPres (Or.inl hgr) (fun σ2 t o2 h2 l hl => ih S σ2 t o2 h2 l hl) h j hj
        | rwA r w =>
          rw [step_read_rw f σ hgr] at h
          exact drvRead_settledPres (Or.inr ⟨w, hgr⟩) (fun σ2 t o2 h2 l hl => ih S σ2 t o2 h2 l hl) h j hj
    | .freshT deps =>
      match deps with
      | [] => rw [step_fresh_nil] at h; cases h; rfl
      | (je, e) :: rest =>
        rw [step_fresh_cons] at h
        simp only [exceptBind_ok_iff] at h
        obtain ⟨a, ha, h2⟩ := h
        have h1 : ∀ l, Settled S σ l → a.st.states l = σ.states l :=
          fun l hl => ih S σ _ a ha l hl
        split at h2
        · have hj2 : Settled S a.st j := Settled.mono_states h1 hj
          exact (ih S a.st _ o h2 j hj2).trans (h1 j hj)
        · cases h2; exact h1 j hj
    | .runT p =>
      match p with
      | .ret v => rw [step_run_ret] at h; cases h; rfl
      | .tick k c =>
        rw [step_run_tick] at h
        have hj2 : Settled S (σ.tickLog k) j :=
          @Settled.mono_states K V _ _ S σ (σ.tickLog k) (fun l _ => rfl) j hj
        exact ih S _ _ o h j hj2
      | .get i c =>
        rw [step_run_get] at h
        simp only [exceptBind_ok_iff] at h
        obtain ⟨a, ha, b, hb, h3⟩ := h
        cases h3
        have h1 : ∀ l, Settled S σ l → a.st.states l = σ.states l :=
          fun l hl => ih S σ _ a ha l hl
        have hj2 : Settled S a.st j := Settled.mono_states h1 hj
        exact (ih S a.st _ b hb j hj2).trans (h1 j hj)

/-- Reading a settled atom is pure: it returns the cached value and
leaves the entire store state (including the log) untouched — this is
the memoization contract.  Stated together with its dependency-check
counterpart: a check over settled, epoch-matching dependencies succeeds
without any state change. -/
theorem settled_pure {K V : Type} [DecidableEq K] [DecidableEq V] :
    ∀ (f : Nat) (S : CStore K V) (σ : St K V),
      (∀ (i : AtomId K) (o : Out K V), Settled S σ i →
        step f S σ (.readT i) = .ok o →
        ∃ st, σ.states i = some st ∧ o = ⟨st.value, [], true, σ⟩) ∧
      (∀ (deps : List (AtomId K × Nat)) (c : Out K V),
        (∀ je ∈ deps, Settled S σ je.1 ∧ epochOf σ je.1 = je.2) →
        step f S σ (.freshT deps) = .ok c → c = ⟨.undef, [], true, σ⟩) := by
  intro f
  induction f with
  | zero =>
    intro S σ
    constructor
    · intro i o _ h; cases h
    · intro deps c _ h; cases h
  | succ f ih =>
    intro S σ
    constructor
    · intro i o hsett h
      cases hsett with
      | primS iv st hg hs =>
        rw [step_read_prim f σ hg] at h
        unfold primRead at h
        rw [hs] at h
        cases h
        exact ⟨st, hs, rfl⟩
      | actS iv st hg hs =>
        rw [step_read_act f σ hg] at h
        unfold primRead at h
        rw [hs] at h
        cases h
        exact ⟨st, hs, rfl⟩
      | drvS r st hg hs hdep heq =>
        rw [step_read_drv f σ hg] at h
        unfold drvRead at h
        rw [hs] at h
        simp only [exceptBind_ok_iff] at h
        obtain ⟨c, hc, h2⟩ := h
        have hcv : c = ⟨.undef, [], true, σ⟩ :=
          (ih S σ).2 st.deps c (fun je hje => ⟨hdep je hje, heq je hje⟩) hc
        rw [hcv] at h2
        simp only at h2
        cases h2
        exact ⟨st, hs, rfl⟩
      | rwS r w st hg hs hdep heq =>
        rw [step_read_rw f σ hg] at h
        unfold drvRead at h
        rw [hs] at h
        simp only [exceptBind_ok_iff] at h
        obtain ⟨c, hc, h2⟩ := h
        have hcv : c = ⟨.undef, [], true, σ⟩ :=
          (ih S σ).2 st.deps c (fun je hje => ⟨hdep je hje, heq je hje⟩) hc
        rw [hcv] at h2
        simp only at h2
        cases h2
        exact ⟨st, hs, rfl⟩
    · intro deps c hdeps h
      match deps with
      | [] => rw [step_fresh_nil] at h; cases h; rfl
      | (j, e) :: rest =>
        rw [step_fresh_cons] at h
        simp only [exceptBind_ok_iff] at h
        obtain ⟨a, ha, h2⟩ := h
        obtain ⟨hjs, hje⟩ := hdeps (j, e) (List.mem_cons_self _ _)
        obtain ⟨st, hst, hav⟩ := (ih S σ).1 j a hjs ha
        rw [hav] at h2
        simp only at h2
        rw [if_pos hje] at h2
        exact (ih S σ).2 rest c
          (fun je2 hje2 => hdeps je2 (List.mem_cons_of_mem _ hje2)) h2

/-- A read program only reads atoms of rank below `n` (through every
control-flow path). -/
inductive ProgBelow {K V : Type} (rk : AtomId K → Nat) (n : Nat) :
    RProg K V → Prop where
  | retB : ∀ v, ProgBelow rk n (.ret v)
  | tickB : ∀ k c, ProgBelow rk n c → ProgBelow rk n (.tick k c)
  | getB : ∀ i c, rk i < n → (∀ v, ProgBelow rk n (c v)) →
      ProgBelow rk n (.get i c)

/-- The atom graph is ranked: every derived read program only reads
atoms of strictly smaller rank.  This is the acyclicity assumption on
the store's dependency structure. -/
def GraphRanked {K V : Type} (S : CStore K V) (rk : AtomId K → Nat) : Prop :=
  ∀ i, (∀ r, S.graph i = some (.drvA r) → ProgBelow rk (rk i) r) ∧
    (∀ r w, S.graph i = some (.rwA r w) → ProgBelow rk (rk i) r)

/-- Store states whose recorded dependencies respect the rank order. -/
def WFrk {K V : Type} (rk : AtomId K → Nat) (σ : St K V) : Prop :=
  ∀ i st, σ.states i = some st → ∀ je ∈ st.deps, rk je.1 < rk i

theorem WFrk_put {K V : Type} [DecidableEq K] {rk : AtomId K → Nat}
    {σ : St K V} {i : AtomId K} {st : AtomState K V} (hwf : WFrk rk σ)
    (hst : ∀ je ∈ st.deps, rk je.1 < rk i) : WFrk rk (σ.put i st) := by
  intro l stl hl je hje
  by_cases hli : l = i
  · subst hli
    rw [St.put_states_self] at hl
    cases hl
    exact hst je hje
  · rw [St.put_states_ne _ _ _ _ hli] at hl
    exact hwf l stl hl je hje

/-- Settledness survives an overwrite of a strictly higher-ranked atom:
the derivation only mentions atoms of rank at most the settled atom's. -/
theorem Settled.put_rank {K V : Type} [DecidableEq K] [DecidableEq V]
    {S : CStore K V} {rk : AtomId K → Nat} {σ : St K V} {i : AtomId K}
    {st2 : AtomState K V} (hwf : WFrk rk σ) {j : AtomId K}
    (h : Settled S σ j) : rk j < rk i → Settled S (σ.put i st2) j := by
  induction h with
  | primS iv st hg hs =>
    intro hlt
    have hne : _ ≠ i := fun he => absurd (he ▸ hlt) (lt_irrefl _)
    exact .primS iv st hg (by rw [St.put_states_ne _ _ _ _ hne]; exact hs)
  | actS iv st hg hs =>
    intro hlt
    have hne : _ ≠ i := fun he => absurd (he ▸ hlt) (lt_irrefl _)
    exact .actS iv st hg (by rw [St.put_states_ne _ _ _ _ hne]; exact hs)
  | drvS r st hg hs hdep heq ih =>
    intro hlt
    have hne : _ ≠ i := fun he => absurd (he ▸ hlt) (lt_irrefl _)
    refine .drvS r st hg (by rw [St.put_states_ne _ _ _ _ hne]; exact hs)
      (fun je hje => ih je hje ((hwf _ st hs je hje).trans hlt))
      (fun je hje => ?_)
    have hjne : je.1 ≠ i := fun he =>
      absurd (he ▸ (hwf _ st hs je hje).trans hlt) (lt_irrefl _)
    rw [epochOf_put_ne _ _ hjne]
    exact heq je hje
  | rwS r w st hg hs hdep heq ih =>
    intro hlt
    have hne : _ ≠ i := fun he => absurd (he ▸ hlt) (lt_irrefl _)
    refine .rwS r w st hg (by rw [St.put_states_ne _ _ _ _ hne]; exact hs)
      (fun je hje => ih je hje ((hwf _ st hs je hje).trans hlt))
      (fun je hje => ?_)
    have hjne : je.1 ≠ i := fun he =>
      absurd (he ▸ (hwf _ st hs je hje).trans hlt) (lt_irrefl _)
    rw [epochOf_put_ne _ _ hjne]
    exact heq je hje

/-- The inductive content of `step_ranked` at a given fuel. -/
def RankedIH {K V : Type} [DecidableEq K] [DecidableEq V]
    (S : CStore K V) (rk : AtomId K → Nat) (f : Nat) : Prop :=
  ∀ σ : St K V, WFrk rk σ →
    (∀ (i : AtomId K) (o : Out K V), step f S σ (.readT i) = .ok o →
      WFrk rk o.st ∧ Settled S o.st i ∧
      (∃ st, o.st.states i = some st ∧ st.value = o.val) ∧
      (∀ l, rk i < rk l → o.st.states l = σ.states l)) ∧
    (∀ (deps : List (AtomId K × Nat)) (c : Out K V),
      step f S σ (.freshT deps) = .ok c →
      WFrk rk c.st ∧
      (∀ l, (∀ je ∈ deps, rk je.1 < rk l) → c.st.states l = σ.states l) ∧
      (c.okB = true → ∀ je ∈ deps,
        Settled S c.st je.1 ∧ epochOf c.st je.1 = je.2)) ∧
    (∀ (p : RProg K V) (n : Nat) (o : Out K V), ProgBelow rk n p →
      step f S σ (.runT p) = .ok o →
      WFrk rk o.st ∧
      (∀ l, n ≤ rk l → o.st.states l = σ.states l) ∧
      (∀ je ∈ o.ds, rk je.1 < n ∧ Settled S o.st je.1 ∧
        epochOf o.st je.1 = je.2))

theorem commit_spec {K V : Type} [DecidableEq K] [DecidableEq V]
    (i : AtomId K) (v : JVal K V) (ds : List (AtomId K × Nat))
    (σ : St K V) : ∃ stN, (commit i v ds σ).st = σ.put i stN ∧
      stN.deps = ds ∧ stN.value = (commit i v ds σ).val := by
  unfold commit
  split
  · split
    · exact ⟨_, rfl, rfl, rfl⟩
    · exact ⟨_, rfl, rfl, rfl⟩
  · exact ⟨_, rfl, rfl, rfl⟩

/-- Committing a recomputation whose tracked dependencies are settled,
epoch-matching and of lower rank produces a settled atom. -/
theorem commit_settled {K V : Type} [DecidableEq K] [DecidableEq V]
    {S : CStore K V} {rk : AtomId K → Nat} {σ2 : St K V} {i : AtomId K}
    {r : RProg K V} {v : JVal K V} {ds : List (AtomId K × Nat)}
    (hwf2 : WFrk rk σ2)
    (hgr : S.graph i = some (.drvA r) ∨ ∃ w, S.graph i = some (.rwA r w))
    (hds : ∀ je ∈ ds, rk je.1 < rk i ∧ Settled S σ2 je.1 ∧
      epochOf σ2 je.1 = je.2) :
    WFrk rk (commit i v ds σ2).st ∧ Settled S (commit i v ds σ2).st i ∧
    (∃ st, (commit i v ds σ2).st.states i = some st ∧
      st.value = (commit i v ds σ2).val) := by
  obtain ⟨stN, hc, hdeps, hval⟩ := commit_spec i v ds σ2
  rw [hc]
  refine ⟨WFrk_put hwf2 (by rw [hdeps]; exact fun je hje => (hds je hje).1), ?_, ?_⟩
  · have hdepS : ∀ je ∈ stN.deps, Settled S (σ2.put i stN) je.1 := by
      rw [hdeps]
      exact fun je hje => Settled.put_rank hwf2 (hds je hje).2.1 (hds je hje).1
    have hdepE : ∀ je ∈ stN.deps, epochOf (σ2.put i stN) je.1 = je.2 := by
      rw [hdeps]
      intro je hje
      have hne : je.1 ≠ i := fun he =>
        absurd (he ▸ (hds je hje).1) (lt_irrefl _)
      rw [epochOf_put_ne _ _ hne]
      exact (hds je hje).2.2
    rcases hgr with hg | ⟨w, hg⟩
    · exact .drvS r stN hg (St.put_states_self _ _ _) hdepS hdepE
    · exact .rwS r w stN hg (St.put_states_self _ _ _) hdepS hdepE
  · exact ⟨stN, St.put_states_self _ _ _, hval⟩

theorem drvRead_ranked {K V : Type} [DecidableEq K] [DecidableEq V]
    {S : CStore K V} {rk : AtomId K → Nat} {f : Nat} {σ : St K V}
    {i : AtomId K} {r : RProg K V} {o : Out K V}
    (hwf : WFrk rk σ)
    (hgr : S.graph i = some (.drvA r) ∨ ∃ w, S.graph i = some (.rwA r w))
    (hpb : ProgBelow rk (rk i) r)
    (ih : RankedIH S rk f)
    (h : drvRead f S σ i r = .ok o) :
    WFrk rk o.st ∧ Settled S o.st i ∧
    (∃ st, o.st.states i = some st ∧ st.value = o.val) ∧
    (∀ l, rk i < rk l → o.st.states l = σ.states l) := by
  unfold drvRead at h
  split at h
  case _ hs =>
    -- uncached: recompute from σ and commit
    simp only [exceptBind_ok_iff] at h
    obtain ⟨a, ha, h2⟩ := h
    obtain ⟨hwf2, habove, hds⟩ := (ih σ hwf).2.2 r (rk i) a hpb ha
    cases h2
    obtain ⟨hwfc, hsett, hstv⟩ := commit_settled hwf2 hgr
      (fun je hje => ⟨(hds je hje).1, (hds je hje).2.1, (hds je hje).2.2⟩)
    refine ⟨hwfc, hsett, hstv, fun l hl => ?_⟩
    obtain ⟨stN, hc, _, _⟩ := commit_spec i a.val a.ds a.st
    rw [hc]
    have hne : l ≠ i := fun he => absurd (he ▸ hl) (lt_irrefl _)
    rw [St.put_states_ne _ _ _ _ hne]
    exact habove l (le_of_lt hl)
  case _ st hs =>
    simp only [exceptBind_ok_iff] at h
    obtain ⟨c, hc, h2⟩ := h
    have hdepsrk : ∀ je ∈ st.deps, rk je.1 < rk i := hwf i st hs
    obtain ⟨hwfc, hcabove, hctrue⟩ := (ih σ hwf).2.1 st.deps c hc
    have hciup : ∀ l, rk i ≤ rk l → c.st.states l = σ.states l := fun l hl =>
      hcabove l (fun je hje => lt_of_lt_of_le (hdepsrk je hje) hl)
    split at h2
    case _ hokB =>
      cases h2
      refine ⟨hwfc, ?_, ⟨st, hciup i le_rfl ▸ hs, rfl⟩,
        fun l hl => hciup l (le_of_lt hl)⟩
      · have hfacts := hctrue hokB
        rcases hgr with hg | ⟨w, hg⟩
        · exact .drvS r st hg ((hciup i le_rfl).trans hs)
            (fun je hje => (hfacts je hje).1) (fun je hje => (hfacts je hje).2)
        · exact .rwS r w st hg ((hciup i le_rfl).trans hs)
            (fun je hje => (hfacts je hje).1) (fun je hje => (hfacts je hje).2)
    case _ hokB =>
      simp only [exceptBind_ok_iff] at h2
      obtain ⟨a, ha, h3⟩ := h2
      obtain ⟨hwf2, habove, hds⟩ := (ih c.st hwfc).2.2 r (rk i) a hpb ha
      cases h3
      obtain ⟨hwfcm, hsett, hstv⟩ := commit_settled hwf2 hgr
        (fun je hje => ⟨(hds je hje).1, (hds je hje).2.1, (hds je hje).2.2⟩)
      refine ⟨hwfcm, hsett, hstv, fun l hl => ?_⟩
      obtain ⟨stN, hcm, _, _⟩ := commit_spec i a.val a.ds a.st
      rw [hcm]
      have hne : l ≠ i := fun he => absurd (he ▸ hl) (lt_irrefl _)
      rw [St.put_states_ne _ _ _ _ hne]
      exact (habove l (le_of_lt hl)).trans (hciup l (le_of_lt hl))

/-- Main rank lemma: over a ranked atom graph, a successful read leaves
the read atom settled with its stored value, keeps states rank-well-
formed, never touches atoms of higher rank, and records only settled,
epoch-matching, lower-rank dependencies; a successful dependency check
that answers `true` certifies every checked dependency settled at its
recorded epoch. -/
theorem step_ranked {K V : Type} [DecidableEq K] [DecidableEq V]
    {S : CStore K V} {rk : AtomId K → Nat} (HR : GraphRanked S rk) :
    ∀ f, RankedIH S rk f := by
  intro f
  induction f with
  | zero =>
    intro σ hwf
    refine ⟨fun i o h => ?_, fun deps c h => ?_, fun p n o hpb h => ?_⟩
    all_goals cases h
  | succ f ih =>
    intro σ hwf
    refine ⟨fun i o h => ?_, fun deps c h => ?_, fun p n o hpb h => ?_⟩
    · -- read
      cases hgr : S.graph i with
      | none => rw [step_read_none f σ hgr] at h; cases h
      | some ad =>
        cases ad with
        | prim iv =>
          rw [step_read_prim f σ hgr] at h
          unfold primRead at h
          split at h
          case _ st hs =>
            cases h
            exact ⟨hwf, .primS iv st hgr hs, ⟨st, hs, rfl⟩, fun l _ => rfl⟩
          case _ hs =>
            cases h
            refine ⟨WFrk_put hwf (by intro je hje; cases hje), ?_, ?_, ?_⟩
            · exact .primS iv _ hgr (St.put_states_self _ _ _)
            · exact ⟨_, St.put_states_self _ _ _, rfl⟩
            · intro l hl
              have hne : l ≠ i := fun he => absurd (he ▸ hl) (lt_irrefl _)
              exact St.put_states_ne _ _ _ _ hne
        | actA iv =>
          rw [step_read_act f σ hgr] at h
          unfold primRead at h
          split at h
          case _ st hs =>
            cases h
            exact ⟨hwf, .actS iv st hgr hs, ⟨st, hs, rfl⟩, fun l _ => rfl⟩
          case _ hs =>
            cases h
            refine ⟨WFrk_put hwf (by intro je hje; cases hje), ?_, ?_, ?_⟩
            · exact .actS iv _ hgr (St.put_states_self _ _ _)
            · exact ⟨_, St.put_states_self _ _ _, rfl⟩
            · intro l hl
              have hne : l ≠ i := fun he => absurd (he ▸ hl) (lt_irrefl _)
              exact St.put_states_ne _ _ _ _ hne
        | drvA r =>
          rw [step_read_drv f σ hgr] at h
          exact drvRead_ranked hwf (Or.inl hgr) ((HR i).1 r hgr) ih h
        | rwA r w =>
          rw [step_read_rw f σ hgr] at h
          exact drvRead_ranked hwf (Or.inr ⟨w, hgr⟩) ((HR i).2 r w hgr) ih h
    · -- fresh
      match deps with
      | [] =>
        rw [step_fresh_nil] at h
        cases h
        exact ⟨hwf, fun l _ => rfl, fun _ je hje => by cases hje⟩
      | (j, e) :: rest =>
        rw [step_fresh_cons] at h
        simp only [exceptBind_ok_iff] at h
        obtain ⟨a, ha, h2⟩ := h
        obtain ⟨hwfa, hsa, hsta, haboveA⟩ := (ih σ hwf).1 j a ha
        split at h2
        case _ heq =>
          obtain ⟨hwfc, haboveC, htrueC⟩ := (ih a.st hwfa).2.1 rest c h2
          refine ⟨hwfc, ?_, ?_⟩
          · intro l hl
            refine (haboveC l ?_).trans (haboveA l (hl (j, e) (List.mem_cons_self _ _)))
            exact fun je hje => hl je (List.mem_cons_of_mem _ hje)
          · intro hb je hje
            rcases List.mem_cons.mp hje with hhead | htail
            · subst hhead
              have hpres : ∀ l, Settled S a.st l → c.st.states l = a.st.states l :=
                fun l hl => step_settledPres f S a.st _ c h2 l hl
              refine ⟨Settled.mono_states hpres hsa, ?_⟩
              have : c.st.states j = a.st.states j := hpres j hsa
              rw [epochOf, this, ← epochOf]
              exact heq
            · exact htrueC hb je htail
        case _ hne =>
          cases h2
          refine ⟨hwfa, ?_, fun hb => by cases hb⟩
          intro l hl
          exact haboveA l (hl (j, e) (List.mem_cons_self _ _))
    · -- run
      match p with
      | .ret v =>
        rw [step_run_ret] at h
        cases h
        exact ⟨hwf, fun l _ => rfl, fun je hje => by cases hje⟩
      | .tick k c =>
        rw [step_run_tick] at h
        cases hpb with
        | tickB _ _ hc =>
          have hwft : WFrk rk (σ.tickLog k) := hwf
          obtain ⟨hwfo, habove, hds⟩ := (ih (σ.tickLog k) hwft).2.2 c n o hc h
          exact ⟨hwfo, habove, hds⟩
      | .get i c =>
        rw [step_run_get] at h
        simp only [exceptBind_ok_iff] at h
        obtain ⟨a, ha, b, hb, h3⟩ := h
        cases hpb with
        | getB _ _ hri hcv =>
          obtain ⟨hwfa, hsa, hsta, haboveA⟩ := (ih σ hwf).1 i a ha
          obtain ⟨hwfb, haboveB, hdsB⟩ := (ih a.st hwfa).2.2 (c a.val) n b (hcv a.val) hb
          cases h3
          refine ⟨hwfb, ?_, ?_⟩
          · intro l hl
            exact (haboveB l hl).trans (haboveA l (lt_of_lt_of_le hri hl))
          · intro je hje
            rcases List.mem_cons.mp hje with hhead | htail
            · subst hhead
              have hpres : ∀ l, Settled S a.st l → b.st.states l = a.st.states l :=
                fun l hl => step_settledPres f S a.st _ b hb l hl
              refine ⟨hri, Settled.mono_states hpres hsa, ?_⟩
              have : b.st.states i = a.st.states i := hpres i hsa
              rw [epochOf, this, ← epochOf]
            · exact hdsB je htail

/-- A read program that never emits a getter-execution event. -/
inductive TickFree {K V : Type} : RProg K V → Prop where
  | retT : ∀ v, TickFree (.ret v)
  | getT : ∀ i c, (∀ v, TickFree (c v)) → TickFree (.get i c)

/-- A read program that never emits the event `k0` (it may tick other
keys). -/
inductive TickAvoid {K V : Type} (k0 : K) : RProg K V → Prop where
  | retA : ∀ v, TickAvoid k0 (.ret v)
  | tickA : ∀ k c, k ≠ k0 → TickAvoid k0 c → TickAvoid k0 (.tick k c)
  | getA : ∀ i c, (∀ v, TickAvoid k0 (c v)) → TickAvoid k0 (.get i c)

theorem TickFree.avoid {K V : Type} {p : RProg K V} (h : TickFree p)
    (k0 : K) : TickAvoid k0 p := by
  induction h with
  | retT v => exact .retA v
  | getT i c _ ih => exact .getA i c (fun v => ih v)

theorem compileGP_tickFree {K V : Type} (vt : K → Option (AtomId K))
    (g : GProg K V) : TickFree (compileGP vt g) := by
  induction g with
  | ret v => exact .retT v
  | read k c ih =>
    unfold compileGP
    split
    · exact .getT _ _ (fun v => ih v)
    · exact ih (.undef)

/-- The atom graph ticks in the standard shape: each derived atom for
key `k` runs `tick k` followed by a tick-free compiled getter body, and
read-write atoms (root projections) never tick. -/
def WellTicked {K V : Type} (S : CStore K V) : Prop :=
  ∀ i, (∀ r, S.graph i = some (.drvA r) →
      ∃ k body, i = .drv k ∧ r = .tick k body ∧ TickFree body) ∧
    (∀ r w, S.graph i = some (.rwA r w) → TickFree r)

/-- Tick counting: a successful read of an atom of rank below that of
the derived atom for `k0` never executes the getter of `k0`. -/
theorem step_tickCount {K V : Type} [DecidableEq K] [DecidableEq V]
    {S : CStore K V} {rk : AtomId K → Nat} (HR : GraphRanked S rk)
    (HT : WellTicked S) :
    ∀ (f : Nat) (σ : St K V), WFrk rk σ →
    (∀ (i : AtomId K) (o : Out K V) (k0 : K),
      step f S σ (.readT i) = .ok o → rk i < rk (.drv k0) →
      o.st.log.count k0 = σ.log.count k0) ∧
    (∀ (deps : List (AtomId K × Nat)) (c : Out K V) (k0 : K),
      step f S σ (.freshT deps) = .ok c →
      (∀ je ∈ deps, rk je.1 < rk (.drv k0)) →
      c.st.log.count k0 = σ.log.count k0) ∧
    (∀ (p : RProg K V) (n : Nat) (o : Out K V) (k0 : K), ProgBelow rk n p →
      TickAvoid k0 p → step f S σ (.runT p) = .ok o → n ≤ rk (.drv k0) →
      o.st.log.count k0 = σ.log.count k0) := by
  intro f
  induction f with
  | zero =>
    intro σ hwf
    refine ⟨fun i o k0 h => ?_, fun deps c k0 h => ?_, fun p n o k0 _ _ h => ?_⟩
    all_goals cases h
  | succ f ih =>
    intro σ hwf
    refine ⟨fun i o k0 h hlt => ?_, fun deps c k0 h hdeps => ?_,
      fun p n o k0 hpb hta h hle => ?_⟩
    · -- read
      cases hgr : S.graph i with
      | none => rw [step_read_none f σ hgr] at h; cases h
      | some ad =>
        cases ad with
        | prim iv =>
          rw [step_read_prim f σ hgr] at h
          unfold primRead at h
          split at h <;> cases h <;> simp [St.put_log]
        | actA iv =>
          rw [step_read_act f σ hgr] at h
          unfold primRead at h
          split at h <;> cases h <;> simp [St.put_log]
        | drvA r =>
          rw [step_read_drv f σ hgr] at h
          obtain ⟨k, body, hik, hrb, hbf⟩ := (HT i).1 r hgr
          have hpb : ProgBelow rk (rk i) r := (HR i).1 r hgr
          have hta : TickAvoid k0 r := by
            subst hrb
            cases hpb with
            | tickB _ _ hb =>
              refine .tickA k body (fun he => ?_) (hbf.avoid k0)
              rw [hik, he] at hlt
              exact absurd hlt (lt_irrefl _)
          unfold drvRead at h
          split at h
          case _ hs =>
            simp only [exceptBind_ok_iff] at h
            obtain ⟨a, ha, h2⟩ := h
            cases h2
            obtain ⟨stN, hc, _, _⟩ := commit_spec i a.val a.ds a.st
            rw [hc, St.put_log]
            exact (ih σ hwf).2.2 r (rk i) a k0 hpb hta ha (le_of_lt hlt)
          case _ st hs =>
            simp only [exceptBind_ok_iff] at h
            obtain ⟨c, hc, h2⟩ := h
            have hdrk : ∀ je ∈ st.deps, rk je.1 < rk (.drv k0) :=
              fun je hje => lt_trans (hwf i st hs je hje) hlt
            have hcnt : c.st.log.count k0 = σ.log.count k0 :=
              (ih σ hwf).2.1 st.deps c k0 hc hdrk
            have hwfc : WFrk rk c.st :=
              ((step_ranked HR f σ hwf).2.1 st.deps c hc).1
            split at h2
            · cases h2; exact hcnt
            · simp only [exceptBind_ok_iff] at h2
              obtain ⟨a, ha, h3⟩ := h2
              cases h3
              obtain ⟨stN, hcm, _, _⟩ := commit_spec i a.val a.ds a.st
              rw [hcm, St.put_log]
              exact ((ih c.st hwfc).2.2 r (rk i) a k0 hpb hta ha
                (le_of_lt hlt)).trans hcnt
        | rwA r w =>
          rw [step_read_rw f σ hgr] at h
          have hbf : TickFree r := (HT i).2 r w hgr
          have hpb : ProgBelow rk (rk i) r := (HR i).2 r w hgr
          have hta : TickAvoid k0 r := hbf.avoid k0
          unfold drvRead at h
          split at h
          case _ hs =>
            simp only [exceptBind_ok_iff] at h
            obtain ⟨a, ha, h2⟩ := h
            cases h2
            obtain ⟨stN, hc, _, _⟩ := commit_spec i a.val a.ds a.st
            rw [hc, St.put_log]
            exact (ih σ hwf).2.2 r (rk i) a k0 hpb hta ha (le_of_lt hlt)
          case _ st hs =>
            simp only [exceptBind_ok_iff] at h
            obtain ⟨c, hc, h2⟩ := h
            have hdrk : ∀ je ∈ st.deps, rk je.1 < rk (.drv k0) :=
              fun je hje => lt_trans (hwf i st hs je hje) hlt
            have hcnt : c.st.log.count k0 = σ.log.count k0 :=
              (ih σ hwf).2.1 st.deps c k0 hc hdrk
            have hwfc : WFrk rk c.st :=
              ((step_ranked HR f σ hwf).2.1 st.deps c hc).1
            split at h2
            · cases h2; exact hcnt
            · simp only [exceptBind_ok_iff] at h2
              obtain ⟨a, ha, h3⟩ := h2
              cases h3
              obtain ⟨stN, hcm, _, _⟩ := commit_spec i a.val a.ds a.st
              rw [hcm, St.put_log]
              exact ((ih c.st hwfc).2.2 r (rk i) a k0 hpb hta ha
                (le_of_lt hlt)).trans hcnt
    · -- fresh
      match deps with
      | [] => rw [step_fresh_nil] at h; cases h; rfl
      | (j, e) :: rest =>
        rw [step_fresh_cons] at h
        simp only [exceptBind_ok_iff] at h
        obtain ⟨a, ha, h2⟩ := h
        have hja : a.st.log.count k0 = σ.log.count k0 :=
          (ih σ hwf).1 j a k0 ha (hdeps (j, e) (List.mem_cons_self _ _))
        have hwfa : WFrk rk a.st := ((step_ranked HR f σ hwf).1 j a ha).1
        split at h2
        · exact ((ih a.st hwfa).2.1 rest c k0 h2
            (fun je hje => hdeps je (List.mem_cons_of_mem _ hje))).trans hja
        · cases h2; exact hja
    · -- run
      match p with
      | .ret v => rw [step_run_ret] at h; cases h; rfl
      | .tick k c =>
        rw [step_run_tick] at h
        cases hpb with
        | tickB _ _ hcb =>
          cases hta with
          | tickA _ _ hkne hca =>
            have : o.st.log.count k0 = (σ.tickLog k).log.count k0 :=
              (ih (σ.tickLog k) hwf).2.2 c n o k0 hcb hca h hle
            rw [this]
            simp only [St.tickLog, List.count_append]
            have : List.count k0 [k] = 0 :=
              List.count_eq_zero.mpr (by
                intro hmem
                rw [List.mem_singleton] at hmem
                exact hkne hmem.symm)
            rw [this, Nat.add_zero]
      | .get i c =>
        rw [step_run_get] at h
        simp only [exceptBind_ok_iff] at h
        obtain ⟨a, ha, b, hb, h3⟩ := h
        cases h3
        cases hpb with
        | getB _ _ hri hcv =>
          cases hta with
          | getA _ _ hcva =>
            have hwfa : WFrk rk a.st := ((step_ranked HR f σ hwf).1 i a ha).1
            have h1 : a.st.log.count k0 = σ.log.count k0 :=
              (ih σ hwf).1 i a k0 ha (lt_of_lt_of_le hri hle)
            exact ((ih a.st hwfa).2.2 (c a.val) n b k0 (hcv a.val)
              (hcva a.val) hb hle).trans h1

/-- Write of a primitive atom: jotai's equal-value short-circuit.  The
state is untouched when the written value is `Object.is`-equal to the
current one; otherwise the value is stored and the epoch bumped. -/
def primWrite {K V : Type} [DecidableEq K] [DecidableEq V] (σ : St K V)
    (i : AtomId K) (v : JVal K V) : Except Err (WOut K V) :=
  match σ.states i with
  | some st =>
    if objectIs st.value v then .ok ⟨none, σ⟩
    else .ok ⟨none, σ.put i ⟨v, st.epoch + 1, []⟩⟩
  | none => .ok ⟨none, σ.put i ⟨v, 1, []⟩⟩

theorem wstep_zero {K V : Type} [DecidableEq K] [DecidableEq V]
    (S : CStore K V) (σ : St K V) (t : WTask K V) :
    wstep 0 S σ t = .error .stackOverflow := rfl

theorem wstep_set_prim {K V : Type} [DecidableEq K] [DecidableEq V]
    {S : CStore K V} {i : AtomId K} {iv : JVal K V} (f : Nat) (σ : St K V)
    (v : JVal K V) (hg : S.graph i = some (.prim iv)) :
    wstep (f + 1) S σ (.setT i v) = primWrite σ i v := by
  rw [wstep, hg]; rfl

theorem wstep_set_rw {K V : Type} [DecidableEq K] [DecidableEq V]
    {S : CStore K V} {i : AtomId K} {r : RProg K V}
    {w : JVal K V → WProg K V} (f : Nat) (σ : St K V) (v : JVal K V)
    (hg : S.graph i = some (.rwA r w)) :
    wstep (f + 1) S σ (.setT i v) = wstep f S σ (.runWT (w v)) := by
  rw [wstep, hg]

theorem wstep_set_drv {K V : Type} [DecidableEq K] [DecidableEq V]
    {S : CStore K V} {i : AtomId K} {r : RProg K V} (f : Nat) (σ : St K V)
    (v : JVal K V) (hg : S.graph i = some (.drvA r)) :
    wstep (f + 1) S σ (.setT i v) = .error (.jsError "atom not writable") := by
  rw [wstep, hg]

theorem wstep_set_act {K V : Type} [DecidableEq K] [DecidableEq V]
    {S : CStore K V} {i : AtomId K} {iv : JVal K V} (f : Nat) (σ : St K V)
    (v : JVal K V) (hg : S.graph i = some (.actA iv)) :
    wstep (f + 1) S σ (.setT i v) = .error (.jsError "atom not writable") := by
  rw [wstep, hg]

theorem wstep_runw_ret {K V : Type} [DecidableEq K] [DecidableEq V]
    (f : Nat) (S : CStore K V) (σ : St K V) :
    wstep (f + 1) S σ (.runWT .ret) = .ok ⟨none, σ⟩ := rfl

theorem wstep_runw_get {K V : Type} [DecidableEq K] [DecidableEq V]
    (f : Nat) (S : CStore K V) (σ : St K V) (i : AtomId K)
    (c : JVal K V → WProg K V) :
    wstep (f + 1) S σ (.runWT (.get i c)) = (do
      let o ← step f S σ (.readT i)
      wstep f S o.st (.runWT (c o.val))) := rfl

theorem wstep_runw_setA {K V : Type} [DecidableEq K] [DecidableEq V]
    (f : Nat) (S : CStore K V) (σ : St K V) (i : AtomId K) (v : JVal K V)
    (c : WProg K V) :
    wstep (f + 1) S σ (.runWT (.setA i v c)) = (do
      let o ← wstep f S σ (.setT i v)
      wstep f S o.st (.runWT c)) := rfl

theorem wstep_runw_mkObj {K V : Type} [DecidableEq K] [DecidableEq V]
    (f : Nat) (S : CStore K V) (σ : St K V)
    (fs : List (K × JVal K V)) (c : JVal K V → WProg K V) :
    wstep (f + 1) S σ (.runWT (.mkObj fs c)) =
      wstep f S { σ with nextStamp := σ.nextStamp + 1 }
        (.runWT (c (.obj σ.nextStamp fs))) := rfl

theorem wstep_body_ret {K V : Type} [DecidableEq K] [DecidableEq V]
    (f : Nat) (S : CStore K V) (σ : St K V)
    (res : Option (List (K × JVal K V))) :
    wstep (f + 1) S σ (.bodyT (.ret res)) = .ok ⟨res, σ⟩ := rfl

theorem wstep_body_read {K V : Type} [DecidableEq K] [DecidableEq V]
    (f : Nat) (S : CStore K V) (σ : St K V) (k : K)
    (c : JVal K V → AProg K V) :
    wstep (f + 1) S σ (.bodyT (.read k c)) =
      (match S.viewTarget k with
      | some i => do
        let o ← step f S σ (.readT i)
        wstep f S o.st (.bodyT (c o.val))
      | none => wstep f S σ (.bodyT (c .undef))) := rfl

theorem wstep_body_write {K V : Type} [DecidableEq K] [DecidableEq V]
    (f : Nat) (S : CStore K V) (σ : St K V) (k : K) (v : JVal K V)
    (c : AProg K V) :
    wstep (f + 1) S σ (.bodyT (.write k v c)) =
      (if S.isBase k then do
        let o ← wstep f S σ (.setT (.base k) v)
        wstep f S o.st (.bodyT c)
      else .error (.jsError "Cannot set value for derived state or actions")) := rfl

theorem wstep_apply_nil {K V : Type} [DecidableEq K] [DecidableEq V]
    (f : Nat) (S : CStore K V) (σ : St K V) :
    wstep (f + 1) S σ (.applyT []) = .ok ⟨none, σ⟩ := rfl

theorem wstep_apply_cons {K V : Type} [DecidableEq K] [DecidableEq V]
    (f : Nat) (S : CStore K V) (σ : St K V) (k : K) (v : JVal K V)
    (rest : List (K × JVal K V)) :
    wstep (f + 1) S σ (.applyT ((k, v) :: rest)) =
      (if S.isBase k then do
        let o ← wstep f S σ (.setT (.base k) v)
        wstep f S o.st (.applyT rest)
      else wstep f S σ (.applyT rest)) := rfl

/-- Settled while avoiding atom `Y`: the cached derivation never
consults `Y`.  This captures a derived cell whose last computation's
control-flow path did not read `Y`, directly or transitively. -/
inductive SettledAvoid {K V : Type} [DecidableEq K] [DecidableEq V]
    (S : CStore K V) (Y : AtomId K) (σ : St K V) : AtomId K → Prop where
  | primS : ∀ {i : AtomId K} (iv : JVal K V) (st : AtomState K V),
      i ≠ Y → S.graph i = some (.prim iv) → σ.states i = some st →
      SettledAvoid S Y σ i
  | actS : ∀ {i : AtomId K} (iv : JVal K V) (st : AtomState K V),
      i ≠ Y → S.graph i = some (.actA iv) → σ.states i = some st →
      SettledAvoid S Y σ i
  | drvS : ∀ {i : AtomId K} (r : RProg K V) (st : AtomState K V),
      i ≠ Y → S.graph i = some (.drvA r) → σ.states i = some st →
      (∀ je ∈ st.deps, SettledAvoid S Y σ je.1) →
      (∀ je ∈ st.deps, epochOf σ je.1 = je.2) → SettledAvoid S Y σ i
  | rwS : ∀ {i : AtomId K} (r : RProg K V) (w : JVal K V → WProg K V)
      (st : AtomState K V),
      i ≠ Y → S.graph i = some (.rwA r w) → σ.states i = some st →
      (∀ je ∈ st.deps, SettledAvoid S Y σ je.1) →
      (∀ je ∈ st.deps, epochOf σ je.1 = je.2) → SettledAvoid S Y σ i

/-- A derivation that avoids `Y` survives any overwrite of `Y`. -/
theorem SettledAvoid.put {K V : Type} [DecidableEq K] [DecidableEq V]
    {S : CStore K V} {Y : AtomId K} {σ : St K V} {i : AtomId K}
    (h : SettledAvoid S Y σ i) (st2 : AtomState K V) :
    Settled S (σ.put Y st2) i := by
  induction h with
  | primS iv st hne hg hs =>
    exact .primS iv st hg (by rw [St.put_states_ne _ _ _ _ hne]; exact hs)
  | actS iv st hne hg hs =>
    exact .actS iv st hg (by rw [St.put_states_ne _ _ _ _ hne]; exact hs)
  | drvS r st hne hg hs hdep heq ih =>
    refine .drvS r st hg (by rw [St.put_states_ne _ _ _ _ hne]; exact hs)
      (fun je hje => ih je hje) (fun je hje => ?_)
    have hjne : je.1 ≠ Y := by
      cases hdep je hje with
      | primS _ _ hne2 _ _ => exact hne2
      | actS _ _ hne2 _ _ => exact hne2
      | drvS _ _ hne2 _ _ _ _ => exact hne2
      | rwS _ _ _ hne2 _ _ _ _ => exact hne2
    rw [epochOf_put_ne _ _ hjne]
    exact heq je hje
  | rwS r w st hne hg hs hdep heq ih =>
    refine .rwS r w st hg (by rw [St.put_states_ne _ _ _ _ hne]; exact hs)
      (fun je hje => ih je hje) (fun je hje => ?_)
    have hjne : je.1 ≠ Y := by
      cases hdep je hje with
      | primS _ _ hne2 _ _ => exact hne2
      | actS _ _ hne2 _ _ => exact hne2
      | drvS _ _ hne2 _ _ _ _ => exact hne2
      | rwS _ _ _ hne2 _ _ _ _ => exact hne2
    rw [epochOf_put_ne _ _ hjne]
    exact heq je hje

/-- Forgetting the avoidance. -/
theorem SettledAvoid.settled {K V : Type} [DecidableEq K] [DecidableEq V]
    {S : CStore K V} {Y : AtomId K} {σ : St K V} {i : AtomId K}
    (h : SettledAvoid S Y σ i) : Settled S σ i := by
  induction h with
  | primS iv st hne hg hs => exact .primS iv st hg hs
  | actS iv st hne hg hs => exact .actS iv st hg hs
  | drvS r st hne hg hs hdep heq ih =>
    exact .drvS r st hg hs (fun je hje => ih je hje) heq
  | rwS r w st hne hg hs hdep heq ih =>
    exact .rwS r w st hg hs (fun je hje => ih je hje) heq

/-- A read of a derived atom that cannot pass its dependency check (it
is uncached, or some recorded primitive dependency's epoch moved) runs
the user getter exactly once: the log gains exactly one `D` event. -/
theorem drv_read_ticks_once {K V : Type} [DecidableEq K] [DecidableEq V]
    {S : CStore K V} {rk : AtomId K → Nat} (HR : GraphRanked S rk)
    (HT : WellTicked S) {σ : St K V} (hwf : WFrk rk σ) {D : K}
    {r : RProg K V} (hg : S.graph (.drv D) = some (.drvA r))
    (hstale : σ.states (.drv D) = none ∨
      ∃ st, σ.states (.drv D) = some st ∧ ∃ je ∈ st.deps,
        (∃ iv, S.graph je.1 = some (.prim iv)) ∧ epochOf σ je.1 ≠ je.2)
    {f : Nat} {o : Out K V} (h : step f S σ (.readT (.drv D)) = .ok o) :
    o.st.log.count D = σ.log.count D + 1 := by
  match f with
  | 0 => cases h
  | f + 1 =>
    rw [step_read_drv f σ hg] at h
    obtain ⟨k, body, hik, hrb, hbf⟩ := (HT (.drv D)).1 r hg
    injection hik with hDk
    subst hDk
    subst hrb
    have hpb : ProgBelow rk (rk (.drv D)) (.tick D body) := (HR (.drv D)).1 _ hg
    have hpbody : ProgBelow rk (rk (.drv D)) body := by
      cases hpb with | tickB _ _ hb => exact hb
    have hrun : ∀ (σ1 : St K V) (a : Out K V), WFrk rk σ1 →
        step f S σ1 (.runT (.tick D body)) = .ok a →
        a.st.log.count D = σ1.log.count D + 1 := by
      intro σ1 a hwf1 ha
      match f, ha with
      | f2 + 1, ha =>
        rw [step_run_tick] at ha
        have hcnt : a.st.log.count D = (σ1.tickLog D).log.count D :=
          (step_tickCount HR HT f2 (σ1.tickLog D) hwf1).2.2 body
            (rk (.drv D)) a D hpbody (hbf.avoid D) ha le_rfl
        rw [hcnt]
        simp [St.tickLog, List.count_append]
    unfold drvRead at h
    rcases hstale with hnone | ⟨st, hsome, je0, hje0, ⟨iv0, hgiv⟩, hmis⟩
    · rw [hnone] at h
      simp only [exceptBind_ok_iff] at h
      obtain ⟨a, ha, h2⟩ := h
      cases h2
      obtain ⟨stN, hc, _, _⟩ := commit_spec (.drv D) a.val a.ds a.st
      rw [hc, St.put_log]
      exact hrun σ a hwf ha
    · rw [hsome] at h
      simp only [exceptBind_ok_iff] at h
      obtain ⟨c, hc, h2⟩ := h
      have hwfc : WFrk rk c.st := ((step_ranked HR f σ hwf).2.1 st.deps c hc).1
      split at h2
      case _ hokB =>
        exfalso
        have htrue := ((step_ranked HR f σ hwf).2.1 st.deps c hc).2.2 hokB
        have hprim : epochOf c.st je0.1 = epochOf σ je0.1 := by
          have := (step_basic f S σ (.freshT st.deps) c hc).2 je0.1
            (Or.inl ⟨iv0, hgiv⟩)
          exact this.2.1
        rw [← hprim] at hmis
        exact hmis (htrue je0 hje0).2
      case _ hokB =>
        simp only [exceptBind_ok_iff] at h2
        obtain ⟨a, ha, h3⟩ := h2
        cases h3
        obtain ⟨stN, hcm, _, _⟩ := commit_spec (.drv D) a.val a.ds a.st
        rw [hcm, St.put_log]
        have hfcnt : c.st.log.count D = σ.log.count D :=
          (step_tickCount HR HT f σ hwf).2.1 st.deps c D hc
            (fun je hje => hwf _ st hsome je hje)
        rw [hrun c.st a hwfc ha, hfcnt]

theorem writeField_prim_eq {K V : Type} [DecidableEq K] [DecidableEq V]
    {S : CStore K V} {k : K} {iv : JVal K V} {st : AtomState K V}
    (f : Nat) (σ : St K V) (v : JVal K V)
    (hg : S.graph (.base k) = some (.prim iv))
    (hs : σ.states (.base k) = some st)
    (heq : objectIs st.value v = true) :
    writeField (f + 1) S σ k v = .ok σ := by
  unfold writeField
  rw [wstep_set_prim f σ v hg]
  unfold primWrite
  rw [hs]
  simp only [heq, if_true]
  rfl

theorem writeField_prim_ne {K V : Type} [DecidableEq K] [DecidableEq V]
    {S : CStore K V} {k : K} {iv : JVal K V} {st : AtomState K V}
    (f : Nat) (σ : St K V) (v : JVal K V)
    (hg : S.graph (.base k) = some (.prim iv))
    (hs : σ.states (.base k) = some st)
    (hne : objectIs st.value v = false) :
    writeField (f + 1) S σ k v =
      .ok (σ.put (.base k) ⟨v, st.epoch + 1, []⟩) := by
  unfold writeField
  rw [wstep_set_prim f σ v hg]
  unfold primWrite
  rw [hs]
  simp only [hne, Bool.false_eq_true, if_false]
  rfl

/-- Pure effect of one base-cell write in the per-field-atom layout. -/
def applyPrim1 {K V : Type} [DecidableEq K] [DecidableEq V] (σ : St K V)
    (k : K) (v : JVal K V) : St K V :=
  match σ.states (.base k) with
  | some st =>
    if objectIs st.value v then σ
    else σ.put (.base k) ⟨v, st.epoch + 1, []⟩
  | none => σ.put (.base k) ⟨v, 1, []⟩

/-- Pure effect of applying a returned partial update: each entry whose
key names a base field writes that base cell, all other entries are
skipped. -/
def applyFold {K V : Type} [DecidableEq K] [DecidableEq V]
    (S : CStore K V) (σ : St K V) : List (K × JVal K V) → St K V
  | [] => σ
  | (k, v) :: rest =>
    if S.isBase k then applyFold S (applyPrim1 σ k v) rest
    else applyFold S σ rest

theorem applyFold_cons {K V : Type} [DecidableEq K] [DecidableEq V]
    (S : CStore K V) (σ : St K V) (k : K) (v : JVal K V)
    (rest : List (K × JVal K V)) :
    applyFold S σ ((k, v) :: rest) =
      if S.isBase k then applyFold S (applyPrim1 σ k v) rest
      else applyFold S σ rest := rfl

/-- `primWrite` on a base atom is the pure single-write effect. -/
theorem primWrite_eq_applyPrim1 {K V : Type} [DecidableEq K] [DecidableEq V]
    (σ : St K V) (k : K) (v : JVal K V) :
    primWrite σ (.base k) v = .ok ⟨none, applyPrim1 σ k v⟩ := by
  unfold primWrite applyPrim1
  cases hss : σ.states (AtomId.base k)
  · rfl
  · dsimp only
    split <;> rfl

/-- In a store whose base atoms are all primitive (the first
implementation), applying a partial update is exactly the pure fold:
no error, no getter execution, no atom beyond the written base cells. -/
theorem apply_entries_prim {K V : Type} [DecidableEq K] [DecidableEq V]
    {S : CStore K V}
    (HB : ∀ k, S.isBase k = true → ∃ iv, S.graph (.base k) = some (.prim iv)) :
    ∀ (entries : List (K × JVal K V)) (f : Nat) (σ : St K V),
      entries.length < f →
      wstep f S σ (.applyT entries) = .ok ⟨none, applyFold S σ entries⟩ := by
  intro entries
  induction entries with
  | nil =>
    intro f σ hf
    match f, hf with
    | f + 1, _ => rw [wstep_apply_nil]; rfl
  | cons kv rest ih =>
    intro f σ hf
    match f, hf with
    | f + 1, hf =>
      obtain ⟨k, v⟩ := kv
      have hf2 : rest.length < f := by
        simpa [List.length_cons, Nat.succ_lt_succ_iff] using hf
      rw [wstep_apply_cons]
      by_cases hb : S.isBase k
      · rw [if_pos hb]
        have hRHS : applyFold S σ ((k, v) :: rest) =
            applyFold S (applyPrim1 σ k v) rest := by
          rw [applyFold_cons, if_pos hb]
        rw [hRHS]
        obtain ⟨iv, hg⟩ := HB k hb
        have hf1 : 0 < f := Nat.lt_of_le_of_lt (Nat.zero_le _) hf2
        match f, hf1, hf2 with
        | f2 + 1, _, hf2 =>
          rw [wstep_set_prim f2 σ v hg, primWrite_eq_applyPrim1]
          simp only [exceptBind_ok_iff]
          exact ⟨⟨none, applyPrim1 σ k v⟩, rfl, ih (f2 + 1) _ hf2⟩
      · rw [if_neg hb]
        have hRHS : applyFold S σ ((k, v) :: rest) = applyFold S σ rest := by
          rw [applyFold_cons, if_neg hb]
        rw [hRHS]
        exact ih f σ hf2

theorem applyFold_log {K V : Type} [DecidableEq K] [DecidableEq V]
    (S : CStore K V) :
    ∀ (entries : List (K × JVal K V)) (σ : St K V),
      (applyFold S σ entries).log = σ.log := by
  intro entries
  induction entries with
  | nil => intro σ; rfl
  | cons kv rest ih =>
    intro σ
    obtain ⟨k, v⟩ := kv
    unfold applyFold
    split
    · rw [ih]
      unfold applyPrim1
      split
      · split <;> simp [St.put_log]
      · simp [St.put_log]
    · exact ih σ

theorem applyPrim1_states_ne {K V : Type} [DecidableEq K] [DecidableEq V]
    (σ : St K V) (k : K) (v : JVal K V) (j : AtomId K)
    (hne : j ≠ .base k) : (applyPrim1 σ k v).states j = σ.states j := by
  unfold applyPrim1
  split
  · split
    · rfl
    · exact St.put_states_ne _ _ _ _ hne
  · exact St.put_states_ne _ _ _ _ hne

theorem applyFold_states_ne {K V : Type} [DecidableEq K] [DecidableEq V]
    (S : CStore K V) :
    ∀ (entries : List (K × JVal K V)) (σ : St K V) (j : AtomId K),
      (∀ k v, (k, v) ∈ entries → j ≠ .base k) →
      (applyFold S σ entries).states j = σ.states j := by
  intro entries
  induction entries with
  | nil => intro σ j _; rfl
  | cons kv rest ih =>
    intro σ j hj
    obtain ⟨k, v⟩ := kv
    unfold applyFold
    split
    · rw [ih _ j (fun k2 v2 hm => hj k2 v2 (List.mem_cons_of_mem _ hm)),
        applyPrim1_states_ne σ k v j (hj k v (List.mem_cons_self _ _))]
    · exact ih σ j (fun k2 v2 hm => hj k2 v2 (List.mem_cons_of_mem _ hm))

/-- An action body that only reads (returns its update rather than
assigning through the view). -/
inductive WriteFree {K V : Type} : AProg K V → Prop where
  | retW : ∀ res, WriteFree (.ret res)
  | readW : ∀ k c, (∀ v, WriteFree (c v)) → WriteFree (.read k c)

/-- Running a write-free action body is read-only: base cells keep
their values and epochs, settled atoms are untouched, and the log grows
only by whatever getter executions the body's reads triggered. -/
theorem body_readonly {K V : Type} [DecidableEq K] [DecidableEq V]
    {S : CStore K V} :
    ∀ (f : Nat) (p : AProg K V) (σ : St K V) (o : WOut K V),
      WriteFree p → wstep f S σ (.bodyT p) = .ok o →
      BasicConcl S σ o.st ∧
      (∀ j, Settled S σ j → o.st.states j = σ.states j) := by
  intro f
  induction f with
  | zero => intro p σ o _ h; cases h
  | succ f ih =>
    intro p σ o hwf h
    cases hwf with
    | retW res =>
      rw [wstep_body_ret] at h
      cases h
      exact ⟨BasicConcl.refl S σ, fun j _ => rfl⟩
    | readW k c hc =>
      rw [wstep_body_read] at h
      split at h
      case _ i hvt =>
        simp only [exceptBind_ok_iff] at h
        obtain ⟨a, ha, h2⟩ := h
        obtain ⟨hb, hsp⟩ := ih (c a.val) a.st o (hc a.val) h2
        refine ⟨(step_basic f S σ _ a ha).trans hb, fun j hj => ?_⟩
        have h1 : a.st.states j = σ.states j := step_settledPres f S σ _ a ha j hj
        have hj2 : Settled S a.st j :=
          Settled.mono_states (fun l hl => step_settledPres f S σ _ a ha l hl) hj
        exact (hsp j hj2).trans h1
      case _ hvt =>
        exact ih (c .undef) σ o (hc .undef) h

/-- A settled derived atom's getter never executes during any read: its
dependency check always succeeds, so reads serve it from cache. -/
theorem step_settledTick {K V : Type} [DecidableEq K] [DecidableEq V]
    {S : CStore K V} (HT : WellTicked S) (k0 : K) :
    ∀ (f : Nat) (σ : St K V), Settled S σ (.drv k0) →
    (∀ (t : RTask K V) (o : Out K V),
      (∀ p, t = .runT p → TickAvoid k0 p) →
      step f S σ t = .ok o → o.st.log.count k0 = σ.log.count k0) := by
  intro f
  induction f with
  | zero => intro σ _ t o _ h; cases h
  | succ f ih =>
    intro σ hk0 t o hta h
    have hpres : ∀ (o2 : Out K V) (t2 : RTask K V),
        step f S σ t2 = .ok o2 → Settled S o2.st (.drv k0) :=
      fun o2 t2 h2 =>
        Settled.mono_states (fun l hl => step_settledPres f S σ t2 o2 h2 l hl) hk0
    match t with
    | .readT i =>
      by_cases hik : i = .drv k0
      · subst hik
        obtain ⟨st, hst, hov⟩ := (settled_pure (f + 1) S σ).1 _ o hk0 h
        rw [hov]
      · cases hgr : S.graph i with
        | none => rw [step_read_none f σ hgr] at h; cases h
        | some ad =>
          cases ad with
          | prim iv =>
            rw [step_read_prim f σ hgr] at h
            unfold primRead at h
            split at h <;> cases h <;> simp [St.put_log]
          | actA iv =>
            rw [step_read_act f σ hgr] at h
            unfold primRead at h
            split at h <;> cases h <;> simp [St.put_log]
          | drvA r =>
            rw [step_read_drv f σ hgr] at h
            obtain ⟨k, body, hik2, hrb, hbf⟩ := (HT i).1 r hgr
            have hta2 : TickAvoid k0 r := by
              subst hrb
              refine .tickA k body (fun he => hik ?_) (hbf.avoid k0)
              rw [hik2, he]
            unfold drvRead at h
            split at h
            case _ hs =>
              simp only [exceptBind_ok_iff] at h
              obtain ⟨a, ha, h2⟩ := h
              cases h2
              obtain ⟨stN, hc, _, _⟩ := commit_spec i a.val a.ds a.st
              rw [hc, St.put_log]
              exact ih σ hk0 _ a (fun p hp => by cases hp; exact hta2) ha
            case _ st hs =>
              simp only [exceptBind_ok_iff] at h
              obtain ⟨c, hc, h2⟩ := h
              have hcnt : c.st.log.count k0 = σ.log.count k0 :=
                ih σ hk0 _ c (fun p hp => by cases hp) hc
              split at h2
              · cases h2; exact hcnt
              · simp only [exceptBind_ok_iff] at h2
                obtain ⟨a, ha, h3⟩ := h2
                cases h3
                obtain ⟨stN, hcm, _, _⟩ := commit_spec i a.val a.ds a.st
                rw [hcm, St.put_log]
                exact (ih c.st (hpres c _ hc) _ a
                  (fun p hp => by cases hp; exact hta2) ha).trans hcnt
          | rwA r w =>
            rw [step_read_rw f σ hgr] at h
            have hta2 : TickAvoid k0 r := ((HT i).2 r w hgr).avoid k0
            unfold drvRead at h
            split at h
            case _ hs =>
              simp only [exceptBind_ok_iff] at h
              obtain ⟨a, ha, h2⟩ := h
              cases h2
              obtain ⟨stN, hc, _, _⟩ := commit_spec i a.val a.ds a.st
              rw [hc, St.put_log]
              exact ih σ hk0 _ a (fun p hp => by cases hp; exact hta2) ha
            case _ st hs =>
              simp only [exceptBind_ok_iff] at h
              obtain ⟨c, hc, h2⟩ := h
              have hcnt : c.st.log.count k0 = σ.log.count k0 :=
                ih σ hk0 _ c (fun p hp => by cases hp) hc
              split at h2
              · cases h2; exact hcnt
              · simp only [exceptBind_ok_iff] at h2
                obtain ⟨a, ha, h3⟩ := h2
                cases h3
                obtain ⟨stN, hcm, _, _⟩ := commit_spec i a.val a.ds a.st
                rw [hcm, St.put_log]
                exact (ih c.st (hpres c _ hc) _ a
                  (fun p hp => by cases hp; exact hta2) ha).trans hcnt
    | .freshT deps =>
      match deps with
      | [] => rw [step_fresh_nil] at h; cases h; rfl
      | (j, e) :: rest =>
        rw [step_fresh_cons] at h
        simp only [exceptBind_ok_iff] at h
        obtain ⟨a, ha, h2⟩ := h
        have h1 : a.st.log.count k0 = σ.log.count k0 :=
          ih σ hk0 _ a (fun p hp => by cases hp) ha
        split at h2
        · exact (ih a.st (hpres a _ ha) _ o (fun p hp => by cases hp) h2).trans h1
        · cases h2; exact h1
    | .runT p =>
      have htap : TickAvoid k0 p := hta p rfl
      match p with
      | .ret v => rw [step_run_ret] at h; cases h; rfl
      | .tick k c =>
        rw [step_run_tick] at h
        cases htap with
        | tickA _ _ hkne hca =>
          have hk0t : Settled S (σ.tickLog k) (.drv k0) :=
            @Settled.mono_states K V _ _ S σ (σ.tickLog k) (fun l _ => rfl)
              _ hk0
          have : o.st.log.count k0 = (σ.tickLog k).log.count k0 :=
            ih (σ.tickLog k) hk0t _ o (fun p2 hp => by cases hp; exact hca) h
          rw [this]
          simp only [St.tickLog, List.count_append]
          have : List.count k0 [k] = 0 :=
            List.count_eq_zero.mpr (by
              intro hmem
              rw [List.mem_singleton] at hmem
              exact hkne hmem.symm)
          rw [this, Nat.add_zero]
      | .get i c =>
        rw [step_run_get] at h
        simp only [exceptBind_ok_iff] at h
        obtain ⟨a, ha, b, hb, h3⟩ := h
        cases h3
        cases htap with
        | getA _ _ hcva =>
          have h1 : a.st.log.count k0 = σ.log.count k0 :=
            ih σ hk0 _ a (fun p2 hp => by cases hp) ha
          exact (ih a.st (hpres a _ ha) _ b
            (fun p2 hp => by cases hp; exact hcva a.val) hb).trans h1

theorem writeField_prim_cases {K V : Type} [DecidableEq K] [DecidableEq V]
    {S : CStore K V} {k : K} {iv : JVal K V} {st : AtomState K V}
    {f : Nat} {σ σw : St K V} {v : JVal K V}
    (hg : S.graph (.base k) = some (.prim iv))
    (hs : σ.states (.base k) = some st)
    (h : writeField f S σ k v = .ok σw) :
    (objectIs st.value v = true ∧ σw = σ) ∨
    (objectIs st.value v = false ∧
      σw = σ.put (.base k) ⟨v, st.epoch + 1, []⟩) := by
  match f with
  | 0 => cases h
  | f + 1 =>
    unfold writeField at h
    rw [wstep_set_prim f σ v hg] at h
    unfold primWrite at h
    rw [hs] at h
    dsimp only at h
    cases hobj : objectIs st.value v
    · rw [hobj] at h
      simp only [Bool.false_eq_true, if_false, Except.map] at h
      cases h
      exact Or.inr ⟨rfl, rfl⟩
    · rw [hobj] at h
      simp only [if_true, Except.map] at h
      cases h
      exact Or.inl ⟨rfl, rfl⟩

theorem applyPrim1_wfrk {K V : Type} [DecidableEq K] [DecidableEq V]
    {rk : AtomId K → Nat} {σ : St K V} (hwf : WFrk rk σ) (k : K)
    (v : JVal K V) : WFrk rk (applyPrim1 σ k v) := by
  unfold applyPrim1
  split
  · split
    · exact hwf
    · exact WFrk_put hwf (fun je hje => by cases hje)
  · exact WFrk_put hwf (fun je hje => by cases hje)

theorem applyFold_wfrk {K V : Type} [DecidableEq K] [DecidableEq V]
    {S : CStore K V} {rk : AtomId K → Nat} :
    ∀ (entries : List (K × JVal K V)) (σ : St K V), WFrk rk σ →
      WFrk rk (applyFold S σ entries) := by
  intro entries
  induction entries with
  | nil => intro σ hwf; exact hwf
  | cons kv rest ih =>
    intro σ hwf
    obtain ⟨k, v⟩ := kv
    rw [applyFold_cons]
    split
    · exact ih _ (applyPrim1_wfrk hwf k v)
    · exact ih σ hwf

/-- A write-free action body, run over a rank-well-formed state while
some derived atom is settled, keeps states rank-well-formed, keeps that
atom settled, and never executes its getter. -/
theorem body_preserves {K V : Type} [DecidableEq K] [DecidableEq V]
    {S : CStore K V} {rk : AtomId K → Nat} (HR : GraphRanked S rk)
    (HT : WellTicked S) (k0 : K) :
    ∀ (f : Nat) (p : AProg K V) (σ : St K V) (o : WOut K V),
      WriteFree p → WFrk rk σ → Settled S σ (.drv k0) →
      wstep f S σ (.bodyT p) = .ok o →
      WFrk rk o.st ∧ Settled S o.st (.drv k0) ∧
      o.st.log.count k0 = σ.log.count k0 := by
  intro f
  induction f with
  | zero => intro p σ o _ _ _ h; cases h
  | succ f ih =>
    intro p σ o hwfree hwf hk0 h
    cases hwfree with
    | retW res =>
      rw [wstep_body_ret] at h
      cases h
      exact ⟨hwf, hk0, rfl⟩
    | readW k c hc =>
      rw [wstep_body_read] at h
      split at h
      case _ i hvt =>
        simp only [exceptBind_ok_iff] at h
        obtain ⟨a, ha, h2⟩ := h
        have hwfa : WFrk rk a.st := ((step_ranked HR f σ hwf).1 i a ha).1
        have hk0a : Settled S a.st (.drv k0) :=
          Settled.mono_states
            (fun l hl => step_settledPres f S σ _ a ha l hl) hk0
        have hcnt : a.st.log.count k0 = σ.log.count k0 :=
          step_settledTick HT k0 f σ hk0 _ a (fun p2 hp => by cases hp) ha
        obtain ⟨h1, h2b, h3⟩ := ih (c a.val) a.st o (hc a.val) hwfa hk0a h2
        exact ⟨h1, h2b, h3.trans hcnt⟩
      case _ hvt =>
        exact ih (c .undef) σ o (hc .undef) hwf hk0 h

/-- In the first implementation every base field is a primitive atom. -/
theorem createAtomicStore_HB {K V : Type} [DecidableEq K] (d : Defn K V) :
    ∀ k, (createAtomicStore d).isBase k = true →
      ∃ iv, (createAtomicStore d).graph (.base k) = some (.prim iv) := by
  intro k hb
  unfold createAtomicStore at hb ⊢
  dsimp only at hb ⊢
  unfold Defn.isBase at hb
  simp only [graph1]
  cases hl : d.lookup k with
  | none => rw [hl] at hb; cases hb
  | some fd =>
    cases fd with
    | base v => exact ⟨v, rfl⟩
    | drvF g => rw [hl] at hb; cases hb
    | act a => rw [hl] at hb; cases hb

/-- The first implementation's atom graph ticks in the standard shape. -/
theorem createAtomicStore_wellTicked {K V : Type} [DecidableEq K]
    (d : Defn K V) : WellTicked (createAtomicStore d) := by
  intro i
  constructor
  · intro r hr
    unfold createAtomicStore at hr
    dsimp only at hr
    cases i with
    | base k =>
      simp only [graph1] at hr
      split at hr <;> first | cases hr | (exact absurd hr (by simp))
    | drv k =>
      simp only [graph1] at hr
      split at hr
      case _ g hl =>
        injection hr with hr2
        injection hr2 with hr3
        exact ⟨k, compileGP (viewT d) g, rfl, hr3.symm, compileGP_tickFree _ _⟩
      case _ hl => cases hr
    | act k =>
      simp only [graph1] at hr
      split at hr <;> first | cases hr | (exact absurd hr (by simp))
    | root => simp only [graph1] at hr; cases hr
  · intro r w hr
    unfold createAtomicStore at hr
    dsimp only at hr
    cases i with
    | base k =>
      simp only [graph1] at hr
      split at hr <;> first | cases hr | (exact absurd hr (by simp))
    | drv k =>
      simp only [graph1] at hr
      split at hr <;> first | cases hr | (exact absurd hr (by simp))
    | act k =>
      simp only [graph1] at hr
      split at hr <;> first | cases hr | (exact absurd hr (by simp))
    | root => simp only [graph1] at hr; cases hr

theorem WFrk_initSt {K V : Type} (rk : AtomId K → Nat) :
    WFrk rk (initSt : St K V) := by
  intro i st h
  cases h

/-- The memoization-scenario store, built by the first implementation. -/
def Sd : CStore Key Int := createAtomicStore dDouble

/-- The atomic-action-scenario store. -/
def Ss : CStore Key Int := createAtomicStore dSum

/-- The conditional-dependency store. -/
def Sk : CStore Key Int := createAtomicStore dCond

/-- The cyclic store. -/
def Sc : CStore Key Int := createAtomicStore dCyc

/-- A rank function for the acyclic concrete stores: the conditional
derived cell `a` (which may read derived cell `b`) sits above all other
derived cells, which sit above the value holders. -/
def rkD : AtomId Key → Nat := fun i =>
  match i with
  | .drv Key.ka => 2
  | .drv _ => 1
  | _ => 0

/-- Force a successful read outcome (used to name concrete run results;
falls back to a dummy on error). -/
def forceOut {K V : Type} (σ : St K V) (r : Except Err (Out K V)) :
    Out K V :=
  match r with
  | .ok o => o
  | .error _ => ⟨.undef, [], false, σ⟩

/-- Force a successful write outcome. -/
def forceSt {K V : Type} (σ : St K V) (r : Except Err (St K V)) : St K V :=
  match r with
  | .ok σ2 => σ2
  | .error _ => σ

theorem Sd_ranked : GraphRanked Sd rkD := by
  intro i
  constructor
  · intro r hr
    cases i with
    | base k => cases k <;> exact nomatch hr
    | act k => cases k <;> exact nomatch hr
    | root => exact nomatch hr
    | drv k =>
      cases k
      case kdouble =>
        injection hr with h1
        injection h1 with h2
        rw [← h2]
        exact .tickB _ _ (.getB _ _ (by decide) (fun v => .retB _))
      all_goals exact nomatch hr
  · intro r w hr
    cases i with
    | base k => cases k <;> exact nomatch hr
    | act k => cases k <;> exact nomatch hr
    | root => exact nomatch hr
    | drv k => cases k <;> exact nomatch hr

theorem Ss_ranked : GraphRanked Ss rkD := by
  intro i
  constructor
  · intro r hr
    cases i with
    | base k => cases k <;> exact nomatch hr
    | act k => cases k <;> exact nomatch hr
    | root => exact nomatch hr
    | drv k =>
      cases k
      case ksum =>
        injection hr with h1
        injection h1 with h2
        rw [← h2]
        exact .tickB _ _ (.getB _ _ (by decide) (fun v =>
          .getB _ _ (by decide) (fun v2 => .retB _)))
      all_goals exact nomatch hr
  · intro r w hr
    cases i with
    | base k => cases k <;> exact nomatch hr
    | act k => cases k <;> exact nomatch hr
    | root => exact nomatch hr
    | drv k => cases k <;> exact nomatch hr

theorem Sk_ranked : GraphRanked Sk rkD := by
  intro i
  constructor
  · intro r hr
    cases i with
    | base k => cases k <;> exact nomatch hr
    | act k => cases k <;> exact nomatch hr
    | root => exact nomatch hr
    | drv k =>
      cases k
      case ka =>
        injection hr with h1
        injection h1 with h2
        rw [← h2]
        refine .tickB _ _ (.getB _ _ (by decide) (fun v => ?_))
        match v with
        | .prim n =>
          show ProgBelow rkD 2 (compileGP (viewT dCond)
            (if n > 0 then GProg.read Key.kb GProg.ret
             else GProg.ret (.prim 0)))
          by_cases hn : n > 0
          · rw [if_pos hn]
            exact .getB _ _ (by decide) (fun v2 => .retB _)
          · rw [if_neg hn]
            exact .retB _
        | .obj s fs => exact .retB _
        | .sym => exact .retB _
        | .jnull => exact .retB _
        | .func id => exact .retB _
        | .undef => exact .retB _
      case kb =>
        injection hr with h1
        injection h1 with h2
        rw [← h2]
        exact .tickB _ _ (.getB _ _ (by decide) (fun v => .retB _))
      all_goals exact nomatch hr
  · intro r w hr
    cases i with
    | base k => cases k <;> exact nomatch hr
    | act k => cases k <;> exact nomatch hr
    | root => exact nomatch hr
    | drv k => cases k <;> exact nomatch hr

theorem objectIs_refl {K V : Type} [DecidableEq V] (v : JVal K V) :
    objectIs v v = true := by
  cases v <;> simp [objectIs]

/-- Stored value of an atom (`undefined` when uninitialized). -/
def stValOf {K V : Type} (σ : St K V) (j : AtomId K) : JVal K V :=
  match σ.states j with
  | some st => st.value
  | none => (.undef)

/-- C4: in a store built by `createAtomicStore`, writing a value that is
`Object.is`-equal to a base field's current value is a complete no-op:
the resulting store state is exactly the old one, so the version is not
incremented, no subscriber can be notified and no dependent cache is
invalidated; writing a distinct value stores it, bumps the field's
version from `st.epoch` to `st.epoch + 1` (strict increase), and
touches nothing else. -/
theorem claim_C4 {K V : Type} [DecidableEq K] [DecidableEq V]
    (d : Defn K V) {k : K} {iv : JVal K V} {st : AtomState K V}
    {σ : St K V}
    (hg : (createAtomicStore d).graph (.base k) = some (.prim iv))
    (hs : σ.states (.base k) = some st) (f : Nat) (v : JVal K V) :
    (objectIs st.value v = true →
      writeField (f + 1) (createAtomicStore d) σ k v = .ok σ) ∧
    (objectIs st.value v = false →
      writeField (f + 1) (createAtomicStore d) σ k v =
        .ok (σ.put (.base k) ⟨v, st.epoch + 1, []⟩) ∧
      epochOf σ (.base k) = st.epoch ∧
      epochOf (σ.put (.base k) ⟨v, st.epoch + 1, []⟩) (.base k) =
        st.epoch + 1 ∧
      (∀ j, j ≠ .base k →
        (σ.put (.base k) ⟨v, st.epoch + 1, []⟩).states j = σ.states j) ∧
      (σ.put (.base k) ⟨v, st.epoch + 1, []⟩).log = σ.log) := by
  constructor
  · intro heq
    exact writeField_prim_eq f σ v hg hs heq
  · intro hne
    refine ⟨writeField_prim_ne f σ v hg hs hne, ?_, ?_, ?_, ?_⟩
    · simp [epochOf, hs]
    · simp [epochOf, St.put_states_self]
    · intro j hj
      exact St.put_states_ne _ _ _ _ hj
    · exact St.put_log _ _ _

/-- C4 witness: on the memoization store with `base` initialized by a
first write of `7`, rewriting `7` leaves the state identical, while
writing `8` bumps the version from 1 to 2 and touches only that cell. -/
theorem claim_C4_witness :
    writeField 6 Sd (forceSt initSt (writeField 5 Sd initSt Key.kbase
      (JVal.prim 7))) Key.kbase (JVal.prim 7) =
      .ok (forceSt initSt (writeField 5 Sd initSt Key.kbase (JVal.prim 7))) ∧
    epochOf (forceSt initSt (writeField 5 Sd initSt Key.kbase
      (JVal.prim 7))) (.base Key.kbase) = 1 := by
  have hg : Sd.graph (.base Key.kbase) = some (.prim (.prim 0)) := rfl
  have hs : (forceSt initSt (writeField 5 Sd initSt Key.kbase
      (JVal.prim 7))).states (.base Key.kbase) =
      some ⟨JVal.prim 7, 1, []⟩ := rfl
  constructor
  · exact (claim_C4 dDouble hg hs 5 (JVal.prim 7)).1 (by decide)
  · decide

/-- C7: in a store built by `createAtomicStore`, writing a base field
never eagerly recomputes anything: the write leaves the event log
unchanged (no getter body executes as part of the write) and leaves the
state of every other atom — in particular every derived atom's cache —
untouched. -/
theorem claim_C7 {K V : Type} [DecidableEq K] [DecidableEq V]
    (d : Defn K V) {k : K} {iv : JVal K V} {f : Nat} {σ σw : St K V}
    {v : JVal K V}
    (hg : (createAtomicStore d).graph (.base k) = some (.prim iv))
    (h : writeField f (createAtomicStore d) σ k v = .ok σw) :
    σw.log = σ.log ∧ ∀ j, j ≠ .base k → σw.states j = σ.states j := by
  match f with
  | 0 => cases h
  | f + 1 =>
    unfold writeField at h
    rw [wstep_set_prim f σ v hg] at h
    unfold primWrite at h
    split at h
    · split at h
      · simp only [Except.map] at h
        cases h
        exact ⟨rfl, fun j _ => rfl⟩
      · simp only [Except.map] at h
        cases h
        exact ⟨St.put_log _ _ _, fun j hj => St.put_states_ne _ _ _ _ hj⟩
    · simp only [Except.map] at h
      cases h
      exact ⟨St.put_log _ _ _, fun j hj => St.put_states_ne _ _ _ _ hj⟩

/-- C7 witness: writing `5` to `base` after `double` has been computed
leaves the log and the derived atom's cache untouched. -/
theorem claim_C7_witness :
    (forceSt (afterRead 20 Sd initSt Key.kdouble)
        (writeField 5 Sd (afterRead 20 Sd initSt Key.kdouble) Key.kbase
          (JVal.prim 5))).log =
      (afterRead 20 Sd initSt Key.kdouble).log ∧
    (forceSt (afterRead 20 Sd initSt Key.kdouble)
        (writeField 5 Sd (afterRead 20 Sd initSt Key.kdouble) Key.kbase
          (JVal.prim 5))).states (.drv Key.kdouble) =
      (afterRead 20 Sd initSt Key.kdouble).states (.drv Key.kdouble) := by
  have hg : Sd.graph (.base Key.kbase) = some (.prim (.prim 0)) := rfl
  have hw : writeField 5 Sd (afterRead 20 Sd initSt Key.kdouble) Key.kbase
      (JVal.prim 5) =
      .ok (forceSt (afterRead 20 Sd initSt Key.kdouble)
        (writeField 5 Sd (afterRead 20 Sd initSt Key.kdouble) Key.kbase
          (JVal.prim 5))) := rfl
  have h := claim_C7 dDouble hg hw
  exact ⟨h.1, h.2 _ (by decide)⟩

/-- C6: inside an action, assigning a base field through the state view
immediately writes the base cell — after the assignment step the cell
holds a value `Object.is`-equal to the assigned one, and the body
continues from that state; assigning a derived or action field throws
`Cannot set value for derived state or actions`; getters receive a
read-only view: no read ever changes any base cell's observable value,
and derived atoms reject direct writes outright. -/
theorem claim_C6 {K V : Type} [DecidableEq K] [DecidableEq V]
    (d : Defn K V) :
    (∀ (k : K) (v : JVal K V) (c : AProg K V) (f : Nat) (σ : St K V)
      (iv : JVal K V) (st : AtomState K V),
      (createAtomicStore d).graph (.base k) = some (.prim iv) →
      σ.states (.base k) = some st →
      (createAtomicStore d).isBase k = true →
      ∃ σ1, wstep (f + 1) (createAtomicStore d) σ (.setT (.base k) v) =
          .ok ⟨none, σ1⟩ ∧
        objectIs (stValOf σ1 (.base k)) v = true ∧
        wstep (f + 2) (createAtomicStore d) σ (.bodyT (.write k v c)) =
          wstep (f + 1) (createAtomicStore d) σ1 (.bodyT c)) ∧
    (∀ (k : K) (v : JVal K V) (c : AProg K V) (f : Nat) (σ : St K V),
      (createAtomicStore d).isBase k = false →
      wstep (f + 1) (createAtomicStore d) σ (.bodyT (.write k v c)) =
        .error (.jsError "Cannot set value for derived state or actions")) ∧
    (∀ (f : Nat) (σ : St K V) (t : RTask K V) (o : Out K V),
      step f (createAtomicStore d) σ t = .ok o →
      ∀ j, isHolder (createAtomicStore d) j →
        baseValOf (createAtomicStore d) o.st j =
          baseValOf (createAtomicStore d) σ j) ∧
    (∀ (k : K) (r : RProg K V) (v : JVal K V) (f : Nat) (σ : St K V),
      (createAtomicStore d).graph (.drv k) = some (.drvA r) →
      wstep (f + 1) (createAtomicStore d) σ (.setT (.drv k) v) =
        .error (.jsError "atom not writable")) := by
  refine ⟨?_, ?_, ?_, ?_⟩
  · intro k v c f σ iv st hg hs hb
    rw [wstep_set_prim f σ v hg]
    unfold primWrite
    rw [hs]
    dsimp only
    cases hobj : objectIs st.value v
    · simp only [Bool.false_eq_true, if_false]
      refine ⟨σ.put (.base k) ⟨v, st.epoch + 1, []⟩, rfl, ?_, ?_⟩
      · simp [stValOf, St.put_states_self, objectIs_refl]
      · rw [wstep_body_write (f + 1) _ σ k v c, if_pos hb]
        rw [wstep_set_prim f σ v hg]
        unfold primWrite
        rw [hs]
        dsimp only
        simp only [hobj, Bool.false_eq_true, if_false]
        rfl
    · simp only [if_true]
      refine ⟨σ, rfl, ?_, ?_⟩
      · simp only [stValOf, hs]
        exact hobj
      · rw [wstep_body_write (f + 1) _ σ k v c, if_pos hb]
        rw [wstep_set_prim f σ v hg]
        unfold primWrite
        rw [hs]
        dsimp only
        simp only [hobj, if_true]
        rfl
  · intro k v c f σ hb
    rw [wstep_body_write f _ σ k v c, if_neg (by rw [hb]; exact fun h => by cases h)]
  · intro f σ t o h j hj
    exact ((step_basic f _ σ t o h).2 j hj).1
  · intro k r v f σ hg
    exact wstep_set_drv f σ v hg

/-- C6 witness: on the action-scenario store, assigning `a := 9` through
the view lands immediately, while assigning the derived field `sum`
through the view errors. -/
theorem claim_C6_witness :
    (∃ σ1, wstep 6 Ss (afterRead 30 Ss initSt Key.ksum)
        (.setT (.base Key.ka) (JVal.prim 9)) = .ok ⟨none, σ1⟩ ∧
      objectIs (stValOf σ1 (.base Key.ka)) (JVal.prim 9) = true ∧
      wstep 7 Ss (afterRead 30 Ss initSt Key.ksum)
          (.bodyT (.write Key.ka (JVal.prim 9) (.ret none))) =
        wstep 6 Ss σ1 (.bodyT (.ret none))) ∧
    wstep 6 Ss (afterRead 30 Ss initSt Key.ksum)
        (.bodyT (.write Key.ksum (JVal.prim 9) (.ret none))) =
      .error (.jsError "Cannot set value for derived state or actions") := by
  have hg : Ss.graph (.base Key.ka) = some (.prim (.prim 1)) := rfl
  have hs : (afterRead 30 Ss initSt Key.ksum).states (.base Key.ka) =
      some ⟨JVal.prim 1, 0, []⟩ := rfl
  constructor
  · exact (claim_C6 dSum).1 Key.ka (JVal.prim 9) (.ret none) 5
      (afterRead 30 Ss initSt Key.ksum) (JVal.prim 1)
      ⟨JVal.prim 1, 0, []⟩ hg hs rfl
  · exact (claim_C6 dSum).2.1 Key.ksum (JVal.prim 9) (.ret none) 5
      (afterRead 30 Ss initSt Key.ksum) rfl

/-- C3: memoization.  Over a ranked (acyclic) store: (a) after any
successful read of derived cell `D`, a second read with no intervening
write returns the same value and leaves the entire state — including
the getter-execution log — untouched, so the getter body does not run
again; (b) a first read of an uncomputed `D` executes its getter
exactly once; (c) after a write of a non-`Object.is`-equal value to a
base cell recorded as a dependency of `D`'s last computation, the next
read of `D` executes its getter exactly once more. -/
theorem claim_C3 {K V : Type} [DecidableEq K] [DecidableEq V]
    {S : CStore K V} {rk : AtomId K → Nat} (HR : GraphRanked S rk)
    (HT : WellTicked S) {σ : St K V} (hwf : WFrk rk σ) {D : K}
    {r : RProg K V} (hg : S.graph (.drv D) = some (.drvA r))
    {f1 : Nat} {o1 : Out K V}
    (h1 : step f1 S σ (.readT (.drv D)) = .ok o1) :
    (∀ f2 o2, step f2 S o1.st (.readT (.drv D)) = .ok o2 →
      o2.val = o1.val ∧ o2.st = o1.st) ∧
    (σ.states (.drv D) = none →
      o1.st.log.count D = σ.log.count D + 1) ∧
    (∀ (st1 : AtomState K V) (Y : K) (e : Nat) (stY : AtomState K V)
      (v : JVal K V) (f3 : Nat) (σw : St K V) (f4 : Nat) (o3 : Out K V)
      (iv : JVal K V),
      o1.st.states (.drv D) = some st1 → (AtomId.base Y, e) ∈ st1.deps →
      S.graph (.base Y) = some (.prim iv) →
      o1.st.states (.base Y) = some stY →
      objectIs stY.value v = false →
      writeField f3 S o1.st Y v = .ok σw →
      step f4 S σw (.readT (.drv D)) = .ok o3 →
      o3.st.log.count D = σw.log.count D + 1) := by
  have hsett : Settled S o1.st (.drv D) :=
    ((step_ranked HR f1 σ hwf).1 (.drv D) o1 h1).2.1
  have hval : ∃ st, o1.st.states (.drv D) = some st ∧ st.value = o1.val :=
    ((step_ranked HR f1 σ hwf).1 (.drv D) o1 h1).2.2.1
  have hwf1 : WFrk rk o1.st := ((step_ranked HR f1 σ hwf).1 (.drv D) o1 h1).1
  refine ⟨?_, ?_, ?_⟩
  · intro f2 o2 h2
    obtain ⟨st, hst, ho2⟩ := (settled_pure f2 S o1.st).1 _ o2 hsett h2
    obtain ⟨st2, hst2, hv2⟩ := hval
    rw [hst] at hst2
    cases hst2
    rw [ho2, ← hv2]
    exact ⟨rfl, rfl⟩
  · intro hnone
    exact drv_read_ticks_once HR HT hwf hg (Or.inl hnone) h1
  · intro st1 Y e stY v f3 σw f4 o3 iv hst1 hdep hgY hsY hne hw h4
    rcases writeField_prim_cases hgY hsY hw with ⟨heqT, _⟩ | ⟨_, hσw⟩
    · rw [heqT] at hne; cases hne
    · have hwfw : WFrk rk σw := by
        rw [hσw]
        exact WFrk_put hwf1 (fun je hje => by cases hje)
      have hstD : σw.states (.drv D) = some st1 := by
        rw [hσw, St.put_states_ne _ _ _ _ (by intro h; cases h)]
        exact hst1
      have heYe : e = stY.epoch := by
        cases hsett with
        | drvS r2 st2 hg2 hs2 hdeps heqs =>
          rw [hst1] at hs2
          cases hs2
          have := heqs (AtomId.base Y, e) hdep
          rw [epochOf, hsY] at this
          exact this.symm
        | rwS r2 w2 st2 hg2 hs2 hdeps heqs => rw [hg] at hg2; cases hg2
        | primS iv2 st2 hg2 hs2 => rw [hg] at hg2; cases hg2
        | actS iv2 st2 hg2 hs2 => rw [hg] at hg2; cases hg2
      have hmis : epochOf σw (.base Y) ≠ e := by
        rw [hσw, epochOf, St.put_states_self]
        rw [heYe]
        exact fun hcon => Nat.succ_ne_self _ hcon
      exact drv_read_ticks_once HR HT hwfw hg
        (Or.inr ⟨st1, hstD, (AtomId.base Y, e), hdep, ⟨iv, hgY⟩, hmis⟩) h4

/-- Result of the first read of `double` on the memoization store. -/
def C3o1 : Out Key Int :=
  forceOut initSt (step 20 Sd initSt (.readT (.drv Key.kdouble)))

/-- State after then writing `base := 5`. -/
def C3sw : St Key Int :=
  forceSt C3o1.st (writeField 5 Sd C3o1.st Key.kbase (JVal.prim 5))

/-- Result of the next read of `double`. -/
def C3o3 : Out Key Int :=
  forceOut C3sw (step 30 Sd C3sw (.readT (.drv Key.kdouble)))

/-- C3 witness: the spec's scenario — first read computes once, second
read changes nothing, the read after `base := 5` computes exactly once
more. -/
theorem claim_C3_witness :
    C3o1.st.log.count Key.kdouble =
      (initSt : St Key Int).log.count Key.kdouble + 1 ∧
    (forceOut C3o1.st
        (step 20 Sd C3o1.st (.readT (.drv Key.kdouble)))).st = C3o1.st ∧
    C3o3.st.log.count Key.kdouble = C3sw.log.count Key.kdouble + 1 := by
  have hg : Sd.graph (.drv Key.kdouble) = some (.drvA (.tick Key.kdouble
      (compileGP (viewT dDouble)
        (GProg.read Key.kbase (fun v => GProg.ret (mulJ v 2)))))) := rfl
  have h1 : step 20 Sd initSt (.readT (.drv Key.kdouble)) = .ok C3o1 := rfl
  have hmain := claim_C3 Sd_ranked (createAtomicStore_wellTicked dDouble)
    (WFrk_initSt rkD) hg h1
  refine ⟨hmain.2.1 rfl, ?_, ?_⟩
  · have h2 : step 20 Sd C3o1.st (.readT (.drv Key.kdouble)) =
        .ok (forceOut C3o1.st
          (step 20 Sd C3o1.st (.readT (.drv Key.kdouble)))) := rfl
    exact (hmain.1 20 _ h2).2
  · have hst1 : C3o1.st.states (.drv Key.kdouble) =
        some ⟨JVal.prim 0, 0, [(AtomId.base Key.kbase, 0)]⟩ := rfl
    have hsY : C3o1.st.states (.base Key.kbase) =
        some ⟨JVal.prim 0, 0, []⟩ := rfl
    have hw : writeField 5 Sd C3o1.st Key.kbase (JVal.prim 5) =
        .ok C3sw := rfl
    have h4 : step 30 Sd C3sw (.readT (.drv Key.kdouble)) = .ok C3o3 := rfl
    exact hmain.2.2 _ Key.kbase 0 _ (JVal.prim 5) 5 C3sw 30 C3o3
      (JVal.prim 0) hst1 (by decide) rfl hsY (by decide) hw h4

/-- C5: conditional dependency tracking.  If derived cell `D`'s cached
derivation avoids base cell `Y` (its last computation's path did not
read `Y`, directly or transitively), then after any write to `Y` a read
of `D` is served from cache: same value, no recomputation, no getter
execution, no state change at all. -/
theorem claim_C5 {K V : Type} [DecidableEq K] [DecidableEq V]
    {S : CStore K V} {σ : St K V} {D Y : K} {iv : JVal K V}
    {stY : AtomState K V} {f : Nat} {σw : St K V} {v : JVal K V}
    (hav : SettledAvoid S (.base Y) σ (.drv D))
    (hgY : S.graph (.base Y) = some (.prim iv))
    (hsY : σ.states (.base Y) = some stY)
    (hw : writeField f S σ Y v = .ok σw) :
    ∀ (f2 : Nat) (o2 : Out K V),
      step f2 S σw (.readT (.drv D)) = .ok o2 →
      ∃ st, σw.states (.drv D) = some st ∧
        o2 = ⟨st.value, [], true, σw⟩ := by
  intro f2 o2 h2
  rcases writeField_prim_cases hgY hsY hw with ⟨_, hid⟩ | ⟨_, hput⟩
  · subst hid
    exact (settled_pure f2 S σw).1 _ o2 hav.settled h2
  · subst hput
    exact (settled_pure f2 S _).1 _ o2 (hav.put _) h2

/-- State of the conditional store after reading `a` then `b`. -/
def C5s1 : St Key Int :=
  afterRead 30 Sk (afterRead 30 Sk initSt Key.ka) Key.kb

/-- State after then writing `y := 1`. -/
def C5sw : St Key Int :=
  forceSt C5s1 (writeField 5 Sk C5s1 Key.ky (JVal.prim 1))

/-- C5 witness: with `x = 0`, cell `a`'s last computation did not read
`b` (nor `y`), so writing `y := 1` leaves a read of `a` fully cached:
value `0`, no state change, no recomputation. -/
theorem claim_C5_witness :
    (forceOut C5sw (step 30 Sk C5sw (.readT (.drv Key.ka)))).st = C5sw ∧
    (forceOut C5sw (step 30 Sk C5sw (.readT (.drv Key.ka)))).val =
      JVal.prim 0 := by
  have hav : SettledAvoid Sk (.base Key.ky) C5s1 (.drv Key.ka) := by
    refine SettledAvoid.drvS _ ⟨JVal.prim 0, 0, [(AtomId.base Key.kx, 0)]⟩
      (fun h => by cases h) rfl rfl ?_ ?_
    · intro je hje
      rw [List.mem_singleton] at hje
      subst hje
      exact SettledAvoid.primS (JVal.prim 0) ⟨JVal.prim 0, 0, []⟩
        (fun h => by cases h) rfl rfl
    · intro je hje
      rw [List.mem_singleton] at hje
      subst hje
      rfl
  have hw : writeField 5 Sk C5s1 Key.ky (JVal.prim 1) = .ok C5sw := rfl
  have h2 : step 30 Sk C5sw (.readT (.drv Key.ka)) =
      .ok (forceOut C5sw (step 30 Sk C5sw (.readT (.drv Key.ka)))) := rfl
  obtain ⟨st, hst, ho⟩ := claim_C5 hav rfl rfl hw 30 _ h2
  rw [ho]
  have : st = ⟨JVal.prim 0, 0, [(AtomId.base Key.kx, 0)]⟩ := by
    have h3 : C5sw.states (.drv Key.ka) =
        some ⟨JVal.prim 0, 0, [(AtomId.base Key.kx, 0)]⟩ := rfl
    rw [h3] at hst
    injection hst with h4
    exact h4.symm
  rw [this]
  exact ⟨rfl, rfl⟩

/-- Any successful application of a partial update in a store whose base
atoms are primitive equals the pure fold. -/
theorem apply_entries_prim_ok {K V : Type} [DecidableEq K] [DecidableEq V]
    {S : CStore K V}
    (HB : ∀ k, S.isBase k = true → ∃ iv, S.graph (.base k) = some (.prim iv)) :
    ∀ (entries : List (K × JVal K V)) (f : Nat) (σ : St K V) (o : WOut K V),
      wstep f S σ (.applyT entries) = .ok o →
      o = ⟨none, applyFold S σ entries⟩ := by
  intro entries
  induction entries with
  | nil =>
    intro f σ o h
    match f with
    | 0 => cases h
    | f + 1 => rw [wstep_apply_nil] at h; cases h; rfl
  | cons kv rest ih =>
    intro f σ o h
    match f with
    | 0 => cases h
    | f + 1 =>
      obtain ⟨k, v⟩ := kv
      rw [wstep_apply_cons] at h
      by_cases hb : S.isBase k
      · rw [if_pos hb] at h
        have hRHS : applyFold S σ ((k, v) :: rest) =
            applyFold S (applyPrim1 σ k v) rest := by
          rw [applyFold_cons, if_pos hb]
        rw [hRHS]
        obtain ⟨iv, hg⟩ := HB k hb
        match f, h with
        | 0, h => cases h
        | f2 + 1, h =>
          rw [wstep_set_prim f2 σ v hg, primWrite_eq_applyPrim1] at h
          simp only [exceptBind_ok_iff] at h
          obtain ⟨a, ha, h2⟩ := h
          cases ha
          exact ih (f2 + 1) _ o h2
      · rw [if_neg hb] at h
        have hRHS : applyFold S σ ((k, v) :: rest) = applyFold S σ rest := by
          rw [applyFold_cons, if_neg hb]
        rw [hRHS]
        exact ih f σ o h

/-- C2: atomic multi-field actions.  Invoking an action whose body is
write-free (it returns its update) decomposes as: the body runs
read-only against the pre-action state (no base cell's value or version
changes while it runs), then every returned entry naming a base field
is applied as one uninterrupted batch (the pure fold `applyFold`) which
executes no getter (the log is unchanged by the application) — so no
partially-applied state is observable.  The invocation never executes
the getter of a settled derived cell `F`; and when the update touches
two distinct base fields both recorded as dependencies of `F`'s last
computation (with the first receiving a non-`Object.is`-equal value),
the next read of `F` executes its getter exactly once. -/
theorem claim_C2 {K V : Type} [DecidableEq K] [DecidableEq V]
    {S : CStore K V} {rk : AtomId K → Nat} (HR : GraphRanked S rk)
    (HT : WellTicked S)
    (HB : ∀ k, S.isBase k = true → ∃ iv, S.graph (.base k) = some (.prim iv))
    {σ : St K V} (hwf : WFrk rk σ)
    {kact : K} {p : AProg K V} (hact : S.actions kact = some p)
    (hwfree : WriteFree p)
    {F : K} {rF : RProg K V}
    (hgF : S.graph (.drv F) = some (.drvA rF))
    (hF : Settled S σ (.drv F))
    {f : Nat} {σ2 : St K V} (hinv : invokeAct f S σ kact = .ok σ2) :
    ∃ ob : WOut K V, wstep f S σ (.bodyT p) = .ok ob ∧
      (∀ j, isHolder S j → baseValOf S ob.st j = baseValOf S σ j ∧
        epochOf ob.st j = epochOf σ j) ∧
      ((ob.res = none ∧ σ2 = ob.st) ∨
        (∃ es, ob.res = some es ∧ σ2 = applyFold S ob.st es ∧
          σ2.log = ob.st.log)) ∧
      σ2.log.count F = σ.log.count F ∧
      (∀ (a b : K) (va vb : JVal K V) (stF stA : AtomState K V)
        (ea eb : Nat) (iva ivb : JVal K V) (f4 : Nat) (o4 : Out K V),
        ob.res = some [(a, va), (b, vb)] →
        a ≠ b →
        S.graph (.base a) = some (.prim iva) →
        S.graph (.base b) = some (.prim ivb) →
        S.isBase a = true → S.isBase b = true →
        σ.states (.drv F) = some stF →
        (AtomId.base a, ea) ∈ stF.deps → (AtomId.base b, eb) ∈ stF.deps →
        σ.states (.base a) = some stA →
        objectIs stA.value va = false →
        step f4 S σ2 (.readT (.drv F)) = .ok o4 →
        o4.st.log.count F = σ2.log.count F + 1) := by
  unfold invokeAct at hinv
  rw [hact] at hinv
  simp only [exceptBind_ok_iff] at hinv
  obtain ⟨ob, hob, h2⟩ := hinv
  obtain ⟨⟨_, hhold⟩, hspres⟩ := body_readonly f p σ ob hwfree hob
  obtain ⟨hwfb, hFb, hcntb⟩ :=
    body_preserves HR HT F f p σ ob hwfree hwf hF hob
  have hFstates : ob.st.states (.drv F) = σ.states (.drv F) := hspres _ hF
  refine ⟨ob, hob, fun j hj => ⟨(hhold j hj).1, (hhold j hj).2.1⟩, ?_, ?_, ?_⟩
  · -- batch decomposition
    cases hres : ob.res with
    | none =>
      rw [hres] at h2
      cases h2
      exact Or.inl ⟨rfl, rfl⟩
    | some es =>
      rw [hres] at h2
      simp only [exceptBind_ok_iff] at h2
      obtain ⟨o2, ho2, h3⟩ := h2
      cases h3
      have := apply_entries_prim_ok HB es f ob.st o2 ho2
      rw [this]
      exact Or.inr ⟨es, rfl, rfl, applyFold_log S es ob.st⟩
  · -- the invocation never executes F's getter
    cases hres : ob.res with
    | none =>
      rw [hres] at h2
      cases h2
      exact hcntb
    | some es =>
      rw [hres] at h2
      simp only [exceptBind_ok_iff] at h2
      obtain ⟨o2, ho2, h3⟩ := h2
      cases h3
      have h4 := apply_entries_prim_ok HB es f ob.st o2 ho2
      rw [h4]
      simp only
      rw [applyFold_log S es ob.st]
      exact hcntb
  · -- single recomputation after the batch
    intro a b va vb stF stA ea eb iva ivb f4 o4 hres hab hga hgb hba hbb
      hsF hdepa hdepb hsA hneA h4
    rw [hres] at h2
    simp only [exceptBind_ok_iff] at h2
    obtain ⟨o2, ho2, h3⟩ := h2
    cases h3
    have ho2e := apply_entries_prim_ok HB _ f ob.st o2 ho2
    rw [ho2e]
    rw [ho2e] at h4
    simp only at h4 ⊢
    -- compute the applied state
    have happ : applyFold S ob.st [(a, va), (b, vb)] =
        applyPrim1 (applyPrim1 ob.st a va) b vb := by
      rw [applyFold_cons, if_pos hba, applyFold_cons, if_pos hbb]
      rfl
    have hsAb : ob.st.states (.base a) = some stA :=
      (hhold (.base a) (Or.inl ⟨iva, hga⟩)).2.2 stA hsA
    have hstep1 : applyPrim1 ob.st a va =
        ob.st.put (.base a) ⟨va, stA.epoch + 1, []⟩ := by
      unfold applyPrim1
      rw [hsAb]
      dsimp only
      rw [hneA]
      simp
    -- F's cached state survives body and application
    have hFσ2 : (applyFold S ob.st [(a, va), (b, vb)]).states (.drv F) =
        some stF := by
      rw [applyFold_states_ne S _ ob.st (.drv F)
        (fun k2 v2 _ => by intro hcon; cases hcon)]
      rw [hFstates, hsF]
    -- the recorded epoch of dependency a
    have hea : ea = stA.epoch := by
      cases hF with
      | drvS r2 st2 hg2 hs2 hdeps heqs =>
        rw [hsF] at hs2
        cases hs2
        have := heqs (AtomId.base a, ea) hdepa
        rw [epochOf, hsA] at this
        exact this.symm
      | rwS r2 w2 st2 hg2 hs2 hdeps heqs => rw [hgF] at hg2; cases hg2
      | primS iv2 st2 hg2 hs2 => rw [hgF] at hg2; cases hg2
      | actS iv2 st2 hg2 hs2 => rw [hgF] at hg2; cases hg2
    -- dependency a's epoch moved
    have hmis : epochOf (applyFold S ob.st [(a, va), (b, vb)]) (.base a) ≠ ea := by
      rw [happ, hstep1]
      have hbne : AtomId.base a ≠ AtomId.base b := by
        intro hcon
        injection hcon with hcon2
        exact hab hcon2
      rw [epochOf, applyPrim1_states_ne _ b vb _ hbne, St.put_states_self]
      rw [hea]
      exact fun hcon => Nat.succ_ne_self _ hcon
    have hwf2 : WFrk rk (applyFold S ob.st [(a, va), (b, vb)]) :=
      applyFold_wfrk _ ob.st hwfb
    exact drv_read_ticks_once HR HT hwf2 hgF
      (Or.inr ⟨stF, hFσ2, (AtomId.base a, ea), hdepa, ⟨iva, hga⟩, hmis⟩) h4

/-- State of the action store after reading `sum`. -/
def C2s1 : St Key Int := afterRead 30 Ss initSt Key.ksum

/-- State after invoking `updateValues(3, 4)`. -/
def C2s2 : St Key Int := afterInvoke 20 Ss C2s1 Key.kupd

/-- C2 witness: the spec's scenario — `updateValues(3, 4)` runs no
getter during the invocation, and the next read of `sum` yields `7`
with exactly one recomputation. -/
theorem claim_C2_witness :
    C2s2.log.count Key.ksum = C2s1.log.count Key.ksum ∧
    (forceOut C2s2 (step 30 Ss C2s2 (.readT (.drv Key.ksum)))).st.log.count
        Key.ksum = C2s2.log.count Key.ksum + 1 ∧
    primOf (forceOut C2s2 (step 30 Ss C2s2 (.readT (.drv Key.ksum)))).val =
      some 7 := by
  have hact : Ss.actions Key.kupd =
      some (AProg.ret (some [(Key.ka, JVal.prim 3), (Key.kb, JVal.prim 4)])) :=
    rfl
  have hgF : Ss.graph (.drv Key.ksum) = some (.drvA (.tick Key.ksum
      (compileGP (viewT dSum) (GProg.read Key.ka (fun va =>
        GProg.read Key.kb (fun vb => GProg.ret (addJ va vb))))))) := rfl
  have hF : Settled Ss C2s1 (.drv Key.ksum) := by
    refine Settled.drvS _ ⟨JVal.prim 3, 0,
      [(AtomId.base Key.ka, 0), (AtomId.base Key.kb, 0)]⟩ hgF rfl ?_ ?_
    · intro je hje
      rcases List.mem_cons.mp hje with h | h
      · subst h
        exact Settled.primS (JVal.prim 1) ⟨JVal.prim 1, 0, []⟩ rfl rfl
      · rw [List.mem_singleton] at h
        subst h
        exact Settled.primS (JVal.prim 2) ⟨JVal.prim 2, 0, []⟩ rfl rfl
    · intro je hje
      rcases List.mem_cons.mp hje with h | h
      · subst h; rfl
      · rw [List.mem_singleton] at h; subst h; rfl
  have h0 : step 30 Ss initSt (.readT (.drv Key.ksum)) =
      .ok (forceOut initSt (step 30 Ss initSt (.readT (.drv Key.ksum)))) := rfl
  have hwf1 : WFrk rkD C2s1 :=
    ((step_ranked Ss_ranked 30 initSt (WFrk_initSt rkD)).1 _ _ h0).1
  have hinv : invokeAct 20 Ss C2s1 Key.kupd = .ok C2s2 := rfl
  obtain ⟨ob, hob, hhold, hbatch, hcnt, hone⟩ := claim_C2 Ss_ranked
    (createAtomicStore_wellTicked dSum) (createAtomicStore_HB dSum) hwf1
    hact (WriteFree.retW _) hgF hF hinv
  have hobv : ob = ⟨some [(Key.ka, JVal.prim 3), (Key.kb, JVal.prim 4)],
      C2s1⟩ := by
    have h5 : wstep 20 Ss C2s1 (.bodyT (AProg.ret
        (some [(Key.ka, JVal.prim 3), (Key.kb, JVal.prim 4)]))) =
        .ok ⟨some [(Key.ka, JVal.prim 3), (Key.kb, JVal.prim 4)], C2s1⟩ := rfl
    rw [h5] at hob
    injection hob with h6
    exact h6.symm
  subst hobv
  have h4 : step 30 Ss C2s2 (.readT (.drv Key.ksum)) =
      .ok (forceOut C2s2 (step 30 Ss C2s2 (.readT (.drv Key.ksum)))) := rfl
  refine ⟨hcnt, ?_, by decide⟩
  exact hone Key.ka Key.kb (JVal.prim 3) (JVal.prim 4)
    ⟨JVal.prim 3, 0, [(AtomId.base Key.ka, 0), (AtomId.base Key.kb, 0)]⟩
    ⟨JVal.prim 1, 0, []⟩ 0 0 (JVal.prim 1) (JVal.prim 2) 30 _
    rfl (by decide) rfl rfl rfl rfl rfl (by decide) (by decide) rfl
    (by decide) h4

/-- Compiled getter body of cyclic cell `a` (it reads `b`). -/
def cycBodyA : RProg Key Int :=
  compileGP (viewT dCyc) (GProg.read Key.kb GProg.ret)

/-- Compiled getter body of cyclic cell `b` (it reads `a`). -/
def cycBodyB : RProg Key Int :=
  compileGP (viewT dCyc) (GProg.read Key.ka GProg.ret)

/-- Read program of derived atom `a`. -/
def cycProgA : RProg Key Int := .tick Key.ka cycBodyA

/-- Read program of derived atom `b`. -/
def cycProgB : RProg Key Int := .tick Key.kb cycBodyB

/-- On the cyclic store, reading `a` or `b` exhausts any amount of call
stack: the mutual recursion `a → b → a → ...` never terminates, and the
outcome is always the stack-overflow error, however much fuel is
provided.  There is no in-progress marker and no cycle detection. -/
theorem cyc_diverges : ∀ (f : Nat) (σ : St Key Int),
    σ.states (.drv Key.ka) = none → σ.states (.drv Key.kb) = none →
    step f Sc σ (.readT (.drv Key.ka)) = .error .stackOverflow ∧
    step f Sc σ (.readT (.drv Key.kb)) = .error .stackOverflow ∧
    step f Sc σ (.runT cycProgA) = .error .stackOverflow ∧
    step f Sc σ (.runT cycProgB) = .error .stackOverflow ∧
    step f Sc σ (.runT cycBodyA) = .error .stackOverflow ∧
    step f Sc σ (.runT cycBodyB) = .error .stackOverflow := by
  intro f
  induction f with
  | zero => intro σ _ _; exact ⟨rfl, rfl, rfl, rfl, rfl, rfl⟩
  | succ f ih =>
    intro σ ha hb
    have hgA : Sc.graph (.drv Key.ka) = some (.drvA cycProgA) := rfl
    have hgB : Sc.graph (.drv Key.kb) = some (.drvA cycProgB) := rfl
    have hta : (σ.tickLog Key.ka).states (.drv Key.ka) = none := ha
    have htb : (σ.tickLog Key.ka).states (.drv Key.kb) = none := hb
    have hta2 : (σ.tickLog Key.kb).states (.drv Key.ka) = none := ha
    have htb2 : (σ.tickLog Key.kb).states (.drv Key.kb) = none := hb
    refine ⟨?_, ?_, ?_, ?_, ?_, ?_⟩
    · rw [step_read_drv f σ hgA]
      unfold drvRead
      rw [ha]
      rw [(ih σ ha hb).2.2.1]
      rfl
    · rw [step_read_drv f σ hgB]
      unfold drvRead
      rw [hb]
      rw [(ih σ ha hb).2.2.2.1]
      rfl
    · rw [show cycProgA = RProg.tick Key.ka cycBodyA from rfl,
        step_run_tick]
      exact (ih (σ.tickLog Key.ka) hta htb).2.2.2.2.1
    · rw [show cycProgB = RProg.tick Key.kb cycBodyB from rfl,
        step_run_tick]
      exact (ih (σ.tickLog Key.kb) hta2 htb2).2.2.2.2.2
    · rw [show cycBodyA = RProg.get (.drv Key.kb)
        (fun v => compileGP (viewT dCyc) (GProg.ret v)) from rfl,
        step_run_get]
      rw [(ih σ ha hb).2.1]
      rfl
    · rw [show cycBodyB = RProg.get (.drv Key.ka)
        (fun v => compileGP (viewT dCyc) (GProg.ret v)) from rfl,
        step_run_get]
      rw [(ih σ ha hb).1]
      rfl

/-- C1 counterexample: on the store
`{x: 0, get a() { return this.b }, get b() { return this.a }}` the
first read of `a` (or `b`) does not raise a `CyclicDependencyError` —
no such error exists anywhere in the implementation — it dies with the
stack-overflow error, exactly as the repository's own tests assert
(`/stack size exceeded/`). -/
theorem claim_C1_counterexample :
    errOf (readField 64 Sc initSt Key.ka) = some Err.stackOverflow ∧
    errOf (readField 64 Sc initSt Key.kb) = some Err.stackOverflow := by
  constructor <;> decide

/-- C1 (amended): the first read of either cyclic field fails with the
stack-overflow error for every possible stack budget — the cycle is
detected by nothing but unbounded recursion — while a read of the
unrelated base field `x` of the same store still returns its correct
value. -/
theorem claim_C1 : ∀ f : Nat,
    readField f Sc initSt Key.ka = .error .stackOverflow ∧
    readField f Sc initSt Key.kb = .error .stackOverflow ∧
    (readField (f + 1) Sc initSt Key.kx).toOption.map
      (fun p => primOf p.1) = some (some 0) := by
  intro f
  obtain ⟨h1, h2, _⟩ := cyc_diverges f initSt rfl rfl
  refine ⟨?_, ?_, ?_⟩
  · show (step f Sc initSt (.readT (.drv Key.ka))).map
      (fun o => (o.val, o.st)) = .error .stackOverflow
    rw [h1]
    rfl
  · show (step f Sc initSt (.readT (.drv Key.kb))).map
      (fun o => (o.val, o.st)) = .error .stackOverflow
    rw [h2]
    rfl
  · have hgx : Sc.graph (.base Key.kx) = some (.prim (.prim 0)) := rfl
    show ((step (f + 1) Sc initSt (.readT (.base Key.kx))).map
      (fun o => (o.val, o.st))).toOption.map (fun p => primOf p.1) =
      some (some 0)
    rw [step_read_prim f initSt hgx]
    rfl

/-- C1 witness for the amended claim at a concrete stack budget. -/
theorem claim_C1_witness :
    readField 64 Sc initSt Key.ka = .error .stackOverflow ∧
    readField 64 Sc initSt Key.kb = .error .stackOverflow ∧
    (readField 65 Sc initSt Key.kx).toOption.map
      (fun p => primOf p.1) = some (some 0) :=
  claim_C1 64

theorem applyFold_append {K V : Type} [DecidableEq K] [DecidableEq V]
    (S : CStore K V) :
    ∀ (es1 es2 : List (K × JVal K V)) (σ : St K V),
      applyFold S σ (es1 ++ es2) = applyFold S (applyFold S σ es1) es2 := by
  intro es1
  induction es1 with
  | nil => intro es2 σ; rfl
  | cons kv rest ih =>
    intro es2 σ
    obtain ⟨k, v⟩ := kv
    rw [List.cons_append, applyFold_cons, applyFold_cons]
    split
    · exact ih es2 _
    · exact ih es2 σ

theorem applyPrim1_applied {K V : Type} [DecidableEq K] [DecidableEq V]
    (σ : St K V) (k : K) (v : JVal K V) :
    objectIs (stValOf (applyPrim1 σ k v) (.base k)) v = true := by
  unfold applyPrim1
  cases h : σ.states (.base k) with
  | some st =>
    dsimp only
    by_cases heq : objectIs st.value v = true
    · rw [if_pos heq]
      unfold stValOf
      rw [h]
      exact heq
    · rw [if_neg heq]
      unfold stValOf
      rw [St.put_states_self]
      exact objectIs_refl v
  | none =>
    unfold stValOf
    rw [St.put_states_self]
    exact objectIs_refl v

theorem applyFold_states_skip {K V : Type} [DecidableEq K] [DecidableEq V]
    (S : CStore K V) :
    ∀ (entries : List (K × JVal K V)) (σ : St K V) (j : AtomId K),
      (∀ k v, (k, v) ∈ entries → S.isBase k = true → j ≠ .base k) →
      (applyFold S σ entries).states j = σ.states j := by
  intro entries
  induction entries with
  | nil => intro σ j _; rfl
  | cons kv rest ih =>
    intro σ j hj
    obtain ⟨k, v⟩ := kv
    rw [applyFold_cons]
    split
    case _ hb =>
      rw [ih _ j (fun k2 v2 hm => hj k2 v2 (List.mem_cons_of_mem _ hm)),
        applyPrim1_states_ne σ k v j
          (hj k v (List.mem_cons_self _ _) hb)]
    case _ =>
      exact ih σ j (fun k2 v2 hm => hj k2 v2 (List.mem_cons_of_mem _ hm))

theorem assignF_proj {K V : Type} [DecidableEq K] :
    ∀ (fs : List (K × JVal K V)) (s : Nat) (k : K) (v : JVal K V),
      projF k (JVal.obj s (assignF fs k v)) = v := by
  intro fs
  induction fs with
  | nil => intro s k v; simp [assignF, projF, fieldsOf, List.find?]
  | cons kv rest ih =>
    intro s k v
    obtain ⟨k2, v2⟩ := kv
    unfold assignF
    by_cases hk : k2 = k
    · rw [if_pos hk]
      subst hk
      simp [projF, fieldsOf, List.find?]
    · rw [if_neg hk]
      simp only [projF, fieldsOf, List.find?]
      have : (decide (k2 = k)) = false := by
        simp [hk]
      rw [this]
      exact ih s k v

/-- The store record assembled by the second implementation (what
`createAtomicStoreV2` returns when construction succeeds). -/
def storeV2 {K V : Type} [DecidableEq K] (d : Defn K V) : CStore K V :=
  { graph := graphV2 d,
    actions := actionsOf d,
    isBase := d.isBase,
    viewTarget := viewT d }

theorem createAtomicStoreV2_ok {K V : Type} [DecidableEq K]
    (f : Nat) (d : Defn K V) (p : CStore K V × St K V)
    (h : createAtomicStoreV2 f d = .ok p) : p.1 = storeV2 d := by
  unfold createAtomicStoreV2 at h
  cases h1 : entriesLog d f with
  | error e => rw [h1] at h; exact nomatch h
  | ok l1 =>
    rw [h1] at h
    simp only [Except.bind] at h
    cases h
    rfl

/-- A base-field write in the second implementation: the read-write
field atom reads the root record, spreads it with the key replaced, and
stores the fresh object back into the root atom (whose stamp check
passes because the new object is a distinct reference). -/
theorem storeV2_set_base {K V : Type} [DecidableEq K] [DecidableEq V]
    (d : Defn K V) (k : K) (iv : JVal K V)
    (hk : d.lookup k = some (.base iv))
    (f : Nat) (σ : St K V) (stR : AtomState K V) (s : Nat)
    (fs : List (K × JVal K V)) (v : JVal K V)
    (hroot : σ.states .root = some stR)
    (hval : stR.value = .obj s fs)
    (hst : s ≠ σ.nextStamp) :
    wstep (f + 5) (storeV2 d) σ (.setT (.base k) v) =
      .ok ⟨none, ({ σ with nextStamp := σ.nextStamp + 1 }).put .root
        ⟨.obj σ.nextStamp (assignF fs k v), stR.epoch + 1, []⟩⟩ := by
  have hgb : (storeV2 d).graph (.base k) =
      some (.rwA (.get .root (fun rv => .ret (projF k rv)))
        (fun v => .get .root (fun rv =>
          .mkObj (assignF (fieldsOf rv) k v) (fun o =>
            .setA .root o .ret)))) := by
    show graphV2 d (.base k) = _
    unfold graphV2
    dsimp only
    rw [hk]
  have hgr : (storeV2 d).graph .root =
      some (.prim (.obj 0 (baseFieldsOf d))) := rfl
  rw [wstep_set_rw (f + 4) σ v hgb]
  rw [wstep_runw_get (f + 3)]
  rw [step_read_prim (f + 2) σ hgr]
  unfold primRead
  rw [hroot]
  show wstep (f + 3) (storeV2 d) σ
    (.runWT (.mkObj (assignF (fieldsOf stR.value) k v)
      (fun o => .setA .root o .ret))) = _
  rw [hval]
  show wstep (f + 3) (storeV2 d) σ
    (.runWT (.mkObj (assignF fs k v) (fun o => .setA .root o .ret))) = _
  rw [wstep_runw_mkObj (f + 2)]
  rw [wstep_runw_setA (f + 1)]
  rw [wstep_set_prim f _ _ hgr]
  unfold primWrite
  have hroot2 : ({ σ with nextStamp := σ.nextStamp + 1 } : St K V).states
      .root = some stR := hroot
  rw [hroot2]
  dsimp only
  rw [hval]
  have hne : objectIs (JVal.obj s fs)
      (JVal.obj σ.nextStamp (assignF fs k v)) = false := by
    simp [objectIs, hst]
  rw [hne]
  show wstep (f + 1) (storeV2 d) _ (.runWT .ret) = _
  rw [wstep_runw_ret f]

/-- A partial update mixing an unknown key (the derived field `double`)
with a declared base field. -/
def CEight : List (Key × JVal Key Int) :=
  [(Key.kdouble, JVal.prim 9), (Key.kbase, JVal.prim 5)]

/-- A second-implementation state whose root record atom is initialized
(stamp 0, distinct from the next fresh stamp 1). -/
def sigV2r : St Key Int :=
  ({ states := fun _ => none, nextStamp := 1, log := [] } : St Key Int).put
    .root ⟨.obj 0 [(Key.kbase, JVal.prim 0)], 0, []⟩

/-- C8: in both implementations the partial update an action returns is
applied with a base-key filter and nothing else.  First implementation
(`if (baseAtoms.has(key)) jotaiStore.set(...)`): the apply loop always
succeeds (no error for unknown keys), equals the pure fold `applyFold`,
that fold leaves every atom other than the written base atoms untouched
(so unknown, derived-field and action-field keys write no cell), and a
base key occurring in the update is applied to its base cell.  Second
implementation (`if (key in fieldAtoms)` over the per-field read-write
atoms): the constructed store is `storeV2`, an entry whose key is not a
declared base field is skipped with no state change and no error, and a
base-field entry replaces that field in the root record. -/
theorem claim_C8 {K V : Type} [DecidableEq K] [DecidableEq V]
    (d : Defn K V) :
    (∀ (entries : List (K × JVal K V)) (f : Nat) (σ : St K V),
      entries.length < f →
        wstep f (createAtomicStore d) σ (.applyT entries) =
          .ok ⟨none, applyFold (createAtomicStore d) σ entries⟩) ∧
    (∀ (entries : List (K × JVal K V)) (σ : St K V) (j : AtomId K),
      (∀ k v, (k, v) ∈ entries → d.isBase k = true → j ≠ .base k) →
        (applyFold (createAtomicStore d) σ entries).states j = σ.states j) ∧
    (∀ (es : List (K × JVal K V)) (k : K) (v : JVal K V) (σ : St K V),
      d.isBase k = true →
        objectIs (stValOf (applyFold (createAtomicStore d) σ (es ++ [(k, v)]))
          (.base k)) v = true) ∧
    (∀ (f : Nat) (p : CStore K V × St K V),
      createAtomicStoreV2 f d = .ok p → p.1 = storeV2 d) ∧
    (∀ (k : K), d.isBase k = false → ∀ (v : JVal K V)
      (rest : List (K × JVal K V)) (f : Nat) (σ : St K V),
        wstep (f + 1) (storeV2 d) σ (.applyT ((k, v) :: rest)) =
          wstep f (storeV2 d) σ (.applyT rest)) ∧
    (∀ (k : K) (iv : JVal K V), d.lookup k = some (.base iv) →
      ∀ (v : JVal K V) (rest : List (K × JVal K V)) (f : Nat) (σ : St K V)
        (stR : AtomState K V) (s : Nat) (fs : List (K × JVal K V)),
        σ.states .root = some stR → stR.value = .obj s fs →
        s ≠ σ.nextStamp →
          wstep (f + 6) (storeV2 d) σ (.applyT ((k, v) :: rest)) =
            wstep (f + 5) (storeV2 d)
              (({ σ with nextStamp := σ.nextStamp + 1 }).put .root
                ⟨.obj σ.nextStamp (assignF fs k v), stR.epoch + 1, []⟩)
              (.applyT rest) ∧
          projF k (JVal.obj σ.nextStamp (assignF fs k v)) = v) := by
  refine ⟨apply_entries_prim (createAtomicStore_HB d), ?_, ?_, ?_, ?_, ?_⟩
  · intro entries σ j hj
    exact applyFold_states_skip (createAtomicStore d) entries σ j hj
  · intro es k v σ hb
    rw [applyFold_append]
    have hb2 : (createAtomicStore d).isBase k = true := hb
    rw [applyFold_cons, if_pos hb2]
    show objectIs (stValOf (applyPrim1 _ k v) (.base k)) v = true
    exact applyPrim1_applied _ k v
  · intro f p h
    exact createAtomicStoreV2_ok f d p h
  · intro k hb v rest f σ
    have hb2 : (storeV2 d).isBase k = false := hb
    rw [wstep_apply_cons, hb2]
    simp
  · intro k iv hk v rest f σ stR s fs hroot hval hst
    have hbt : (storeV2 d).isBase k = true := by
      show d.isBase k = true
      unfold Defn.isBase
      rw [hk]
    refine ⟨?_, assignF_proj fs σ.nextStamp k v⟩
    rw [wstep_apply_cons, if_pos hbt]
    rw [storeV2_set_base d k iv hk f σ stR s fs v hroot hval hst]
    rfl

/-- C8 witness on the `double` store: applying an update containing the
non-base key `double` and the base key `base` succeeds in both
implementations, touches no atom for `double`, and applies `base`. -/
theorem claim_C8_witness :
    (wstep 3 (createAtomicStore dDouble) (initSt : St Key Int)
        (.applyT CEight) =
      .ok ⟨none, applyFold (createAtomicStore dDouble) initSt CEight⟩) ∧
    ((applyFold (createAtomicStore dDouble) (initSt : St Key Int)
        CEight).states (.drv Key.kdouble) =
      (initSt : St Key Int).states (.drv Key.kdouble)) ∧
    (objectIs (stValOf (applyFold (createAtomicStore dDouble)
        (initSt : St Key Int)
        ([(Key.kdouble, JVal.prim 9)] ++ [(Key.kbase, JVal.prim 5)]))
        (.base Key.kbase)) (JVal.prim 5) = true) ∧
    (wstep 1 (storeV2 dDouble) sigV2r
        (.applyT [(Key.kdouble, JVal.prim 9)]) =
      wstep 0 (storeV2 dDouble) sigV2r (.applyT [])) ∧
    (wstep 6 (storeV2 dDouble) sigV2r (.applyT [(Key.kbase, JVal.prim 5)]) =
      wstep 5 (storeV2 dDouble)
        (({ sigV2r with nextStamp := sigV2r.nextStamp + 1 }).put .root
          ⟨.obj sigV2r.nextStamp
            (assignF [(Key.kbase, JVal.prim 0)] Key.kbase (JVal.prim 5)),
            0 + 1, []⟩)
        (.applyT [])) ∧
    (projF Key.kbase (JVal.obj sigV2r.nextStamp
        (assignF ([(Key.kbase, JVal.prim 0)] : List (Key × JVal Key Int))
          Key.kbase (JVal.prim 5))) =
      JVal.prim 5) := by
  obtain ⟨H1, H2, H3, H4, H5, H6⟩ := claim_C8 dDouble
  have h6 := H6 Key.kbase (JVal.prim 0) rfl (JVal.prim 5) [] 0 sigV2r
    ⟨.obj 0 [(Key.kbase, JVal.prim 0)], 0, []⟩ 0 [(Key.kbase, JVal.prim 0)]
    rfl rfl (by decide)
  exact ⟨H1 CEight 3 initSt (by decide),
    H2 CEight initSt (.drv Key.kdouble) (fun k v _ _ h => nomatch h),
    H3 [(Key.kdouble, JVal.prim 9)] Key.kbase (JVal.prim 5) initSt
      (by decide),
    H5 Key.kdouble (by decide) (JVal.prim 9) [] 0 sigV2r,
    h6.1, h6.2⟩

/-- The atomic store the adapter builds over the zustand counter. -/
def SZ : CStore Key Int := (atomicStoreFromZustand zCounter).1

/-- Jotai state after an external write of `100` to the adapter store's
`count` atom. -/
def sigZw : St Key Int :=
  afterWrite 4 SZ initSt Key.kcount (JVal.prim 100)

/-- Outcome of invoking the adapter's `increment` on the untouched
initial state. -/
def zRes1 : St Key Int × List (Key × JVal Key Int) :=
  ((invokeZ 8 zCounter SZ initSt (zClosure0 zCounter)
    Key.kinc).toOption).getD (initSt, [])

/-- Outcome of invoking the adapter's `increment` after the external
write of `100`. -/
def zRes2 : St Key Int × List (Key × JVal Key Int) :=
  ((invokeZ 8 zCounter SZ sigZw (zClosure0 zCounter)
    Key.kinc).toOption).getD (initSt, [])

/-- C9 counterexample: on the adapter counter, an external write of
`100` to the `count` atom is not seen by a subsequent `increment`
invocation: `get()` reads the adapter's closure (still `0`), so the
invocation stores `1` — not `101` — into the `count` atom, and the
closure after the invocation holds `1` as well. -/
theorem claim_C9_counterexample :
    (invokeZ 8 zCounter SZ sigZw (zClosure0 zCounter)
        Key.kinc).toOption.map
        (fun p => primOf (stValOf p.1 (.base Key.kcount))) =
      some (some 1) ∧
    primOf (stValOf sigZw (.base Key.kcount)) = some 100 ∧
    (invokeZ 8 zCounter SZ sigZw (zClosure0 zCounter)
        Key.kinc).toOption.map
        (fun p => primOf (lookupAssoc p.2 Key.kcount)) =
      some (some 1) ∧
    (1 : Int) ≠ 101 := by
  decide

/-- C9 (amended): adapter actions never resolve field access through the
live base cells.  Their `get()` reads the adapter's private closure, so
two invocations of the same action with the same closure — against
arbitrary different jotai stores, atom states and stack budgets — leave
identical closures behind: the jotai atoms, including any externally
written values, are invisible to the action body. -/
theorem claim_C9 {K V : Type} [DecidableEq K] [DecidableEq V]
    (zd : ZDefn K V) (k : K) (a : ZAct K V)
    (hk : zd.lookup k = some (.zact a))
    (f1 f2 : Nat) (S1 S2 : CStore K V) (σ1 σ2 : St K V)
    (ς : List (K × JVal K V))
    (r1 r2 : St K V × List (K × JVal K V))
    (h1 : invokeZ f1 zd S1 σ1 ς k = .ok r1)
    (h2 : invokeZ f2 zd S2 σ2 ς k = .ok r2) :
    r1.2 = (runZ a ς).1 ∧ r2.2 = (runZ a ς).1 := by
  unfold invokeZ at h1 h2
  rw [hk] at h1 h2
  dsimp only at h1 h2
  constructor
  · cases hres : (runZ a ς).2 with
    | none =>
      rw [hres] at h1
      cases h1
      rfl
    | some es =>
      rw [hres] at h1
      dsimp only at h1
      cases hw : wstep f1 S1 σ1 (.applyT es) with
      | error e => rw [hw] at h1; exact nomatch h1
      | ok o =>
        rw [hw] at h1
        cases h1
        rfl
  · cases hres : (runZ a ς).2 with
    | none =>
      rw [hres] at h2
      cases h2
      rfl
    | some es =>
      rw [hres] at h2
      dsimp only at h2
      cases hw : wstep f2 S2 σ2 (.applyT es) with
      | error e => rw [hw] at h2; exact nomatch h2
      | ok o =>
        rw [hw] at h2
        cases h2
        rfl

/-- C9 witness: on the adapter counter, invoking `increment` against the
untouched state and against the externally-written state leaves the same
closure — the one computed from the closure alone. -/
theorem claim_C9_witness :
    zRes1.2 = (runZ (ZAct.zget Key.kcount (fun c =>
      ZAct.zset [(Key.kcount, addJc c 1)] (ZAct.zdone true)))
      (zClosure0 zCounter)).1 ∧
    zRes2.2 = (runZ (ZAct.zget Key.kcount (fun c =>
      ZAct.zset [(Key.kcount, addJc c 1)] (ZAct.zdone true)))
      (zClosure0 zCounter)).1 :=
  claim_C9 zCounter Key.kinc
    (ZAct.zget Key.kcount (fun c =>
      ZAct.zset [(Key.kcount, addJc c 1)] (ZAct.zdone true)))
    (by rfl) 8 8 SZ SZ initSt sigZw (zClosure0 zCounter) zRes1 zRes2
    (by rfl) (by rfl)

theorem baseFields_go {K V : Type} [DecidableEq K] :
    ∀ (fs : List (K × FieldDef K V)) (k : K) (iv : JVal K V),
      ((fs.find? (fun p => p.1 = k)).map Prod.snd) = some (.base iv) →
      (fs.filterMap (fun p =>
        match p.2 with
        | .base v => some (p.1, v)
        | _ => none)).find? (fun p => p.1 = k) = some (k, iv) := by
  intro fs
  induction fs with
  | nil => intro k iv h; exact nomatch h
  | cons p rest ih =>
    intro k iv h
    obtain ⟨k2, fd⟩ := p
    by_cases hk : k2 = k
    · subst hk
      rw [List.find?_cons_of_pos _ (by simp)] at h
      cases fd with
      | base v =>
        cases h
        simp only [List.filterMap_cons]
        rw [List.find?_cons_of_pos _ (by simp)]
      | drvF g => exact nomatch h
      | act a => exact nomatch h
    · rw [List.find?_cons_of_neg _ (by simp [hk])] at h
      simp only [List.filterMap_cons]
      cases fd with
      | base v =>
        rw [List.find?_cons_of_neg _ (by simp [hk])]
        exact ih k iv h
      | drvF g => exact ih k iv h
      | act a => exact ih k iv h

/-- The initial root record of the second implementation holds each
declared base field at its initial value. -/
theorem baseFieldsOf_proj {K V : Type} [DecidableEq K] (d : Defn K V)
    (k : K) (iv : JVal K V) (hk : d.lookup k = some (.base iv)) (s : Nat) :
    projF k (JVal.obj s (baseFieldsOf d)) = iv := by
  unfold Defn.lookup at hk
  unfold projF fieldsOf baseFieldsOf
  rw [baseFields_go d.fields k iv hk]

theorem bind_ok_reduce {e a b : Type} (x : a) (g : a → Except e b) :
    (do
      let y ← Except.ok x
      g y) = g x := rfl

theorem readBase_agree {K V : Type} [DecidableEq K] [DecidableEq V]
    (d : Defn K V) (k : K) (iv : JVal K V)
    (hk : d.lookup k = some (.base iv)) (f : Nat) (l : List K) :
    (readField (f + 1) (createAtomicStore d) initSt k).toOption.map
      (fun p => p.1) = some iv ∧
    (readField (f + 4) (storeV2 d)
      ({ states := fun _ => none, nextStamp := 1, log := l } : St K V)
      k).toOption.map (fun p => p.1) = some iv := by
  constructor
  · have hv1 : (createAtomicStore d).viewTarget k = some (.base k) := by
      show viewT d k = _
      unfold viewT
      rw [hk]
    have hg1 : (createAtomicStore d).graph (.base k) = some (.prim iv) := by
      show graph1 d (.base k) = _
      unfold graph1
      dsimp only
      rw [hk]
    unfold readField
    rw [hv1]
    dsimp only
    rw [step_read_prim f initSt hg1]
    rfl
  · have hv2 : (storeV2 d).viewTarget k = some (.base k) := by
      show viewT d k = _
      unfold viewT
      rw [hk]
    have hg2 : (storeV2 d).graph (.base k) =
        some (.rwA (.get .root (fun rv => .ret (projF k rv)))
          (fun v => .get .root (fun rv =>
            .mkObj (assignF (fieldsOf rv) k v) (fun o =>
              .setA .root o .ret)))) := by
      show graphV2 d (.base k) = _
      unfold graphV2
      dsimp only
      rw [hk]
    have hgr : (storeV2 d).graph .root =
        some (.prim (.obj 0 (baseFieldsOf d))) := rfl
    unfold readField
    rw [hv2]
    dsimp only
    rw [step_read_rw (f + 3) _ hg2]
    unfold drvRead
    dsimp only
    rw [step_run_get (f + 2)]
    rw [step_read_prim (f + 1) _ hgr]
    unfold primRead
    dsimp only
    rw [bind_ok_reduce]
    rw [step_run_ret (f + 1)]
    dsimp only [Except.bind, Except.toOption, Option.map, commit]
    rw [baseFieldsOf_proj d k iv hk 0]
    rfl

/-- Externally observable operations on a constructed store: read a
field, write an integer to a base field, invoke an action. -/
inductive OpA where
  | rdA (k : Key)
  | wrA (k : Key) (n : Int)
  | invA (k : Key)
deriving DecidableEq

/-- Run a sequence of operations, recording for each one the error
raised (if any) and, for reads, the primitive value returned.  A failed
operation leaves the state unchanged, as a caught JS exception would. -/
def runOps (f : Nat) (S : CStore Key Int) :
    St Key Int → List OpA → List (Option Err × Option (Option Int))
  | _, [] => []
  | σ, op :: rest =>
    match op with
    | .rdA k =>
      match readField f S σ k with
      | .ok p => (none, some (primOf p.1)) :: runOps f S p.2 rest
      | .error e => (some e, none) :: runOps f S σ rest
    | .wrA k n =>
      match writeField f S σ k (.prim n) with
      | .ok σ2 => (none, none) :: runOps f S σ2 rest
      | .error e => (some e, none) :: runOps f S σ rest
    | .invA k =>
      match invokeAct f S σ k with
      | .ok σ2 => (none, none) :: runOps f S σ2 rest
      | .error e => (some e, none) :: runOps f S σ rest

/-- All operation sequences of length at most `n` over an alphabet. -/
def seqsUpTo : Nat → List OpA → List (List OpA)
  | 0, _ => [[]]
  | n + 1, alpha =>
    [] :: (alpha.map (fun op => (seqsUpTo n alpha).map (op :: ·))).flatten

/-- The operation alphabet exercised on the `sum` store: reads of both
base fields and the derived field, distinct and `Object.is`-equal
writes, and the multi-field action. -/
def alphaC10 : List OpA :=
  [.rdA Key.ka, .rdA Key.kb, .rdA Key.ksum,
   .wrA Key.ka 3, .wrA Key.kb (-2), .invA Key.kupd]

/-- The second implementation's store over `dSum`. -/
def SsV2 : CStore Key Int := storeV2 dSum

/-- The second implementation's post-construction state over `dSum`. -/
def sigV2s : St Key Int :=
  ((createAtomicStoreV2 8 dSum).toOption.map Prod.snd).getD initSt

/-- C10 counterexample: the two implementations differ observably at
construction time.  Constructing the `double` store with the
shared-root-atom implementation executes the user getter twice (its two
`Object.entries(initial)` passes invoke `get double()` against the raw
definition), while the per-field-atom implementation runs no user code
at construction (its initial state carries an empty execution log); on
the cyclic store the shared-root implementation's construction itself
overflows the stack, while the per-field implementation constructs the
store and its unrelated base field reads back fine. -/
theorem claim_C10_counterexample :
    ((createAtomicStoreV2 8 dDouble).toOption.map (fun p => p.2.log) =
      some [Key.kdouble, Key.kdouble]) ∧
    (initSt : St Key Int).log = [] ∧
    errOf (createAtomicStoreV2 64 dCyc) = some Err.stackOverflow ∧
    ((readField 2 Sc initSt Key.kx).toOption.map (fun p => primOf p.1) =
      some (some 0)) := by
  decide

set_option maxRecDepth 100000 in
/-- C10 (amended): post-construction, the two implementations agree
observably.  They share the action table, base-key predicate and field
routing verbatim; every declared base field reads back its initial value
in both; and on the `sum` store every operation sequence of length at
most three over reads, writes and the multi-field action produces
identical observation traces (same errors, same read values) in both
implementations.  Construction-time side effects (getter execution, and
failure on cyclic stores) remain inequivalent per the counterexample. -/
theorem claim_C10 :
    (∀ (K V : Type) [DecidableEq K] (d : Defn K V),
      (createAtomicStore d).actions = (storeV2 d).actions ∧
      (createAtomicStore d).isBase = (storeV2 d).isBase ∧
      (createAtomicStore d).viewTarget = (storeV2 d).viewTarget) ∧
    (∀ (K V : Type) [DecidableEq K] [DecidableEq V] (d : Defn K V)
      (k : K) (iv : JVal K V), d.lookup k = some (.base iv) →
      ∀ (f : Nat) (l : List K),
        (readField (f + 1) (createAtomicStore d) initSt k).toOption.map
          (fun p => p.1) = some iv ∧
        (readField (f + 4) (storeV2 d)
          ({ states := fun _ => none, nextStamp := 1, log := l } : St K V)
          k).toOption.map (fun p => p.1) = some iv) ∧
    ((seqsUpTo 3 alphaC10).all (fun s =>
      decide (runOps 32 Ss initSt s = runOps 32 SsV2 sigV2s s)) = true) := by
  refine ⟨?_, ?_, ?_⟩
  · intro K V _ d
    exact ⟨rfl, rfl, rfl⟩
  · intro K V _ _ d k iv hk f l
    exact readBase_agree d k iv hk f l
  · decide

/-- C10 witness: the agreement instantiated on the concrete stores —
shared action table on the `sum` store, and the `base` field of the
`double` store reading `0` in both implementations. -/
theorem claim_C10_witness :
    ((createAtomicStore dSum).actions = (storeV2 dSum).actions) ∧
    ((readField 5 (createAtomicStore dDouble) (initSt : St Key Int)
        Key.kbase).toOption.map (fun p => p.1) = some (JVal.prim 0)) ∧
    ((readField 8 (storeV2 dDouble)
        ({ states := fun _ => none, nextStamp := 1, log := [Key.kdouble, Key.kdouble] } : St Key Int)
        Key.kbase).toOption.map (fun p => p.1) = some (JVal.prim 0)) := by
  obtain ⟨H1, H2, _⟩ := claim_C10
  have h2 := H2 Key Int dDouble Key.kbase (JVal.prim 0) (by rfl) 4
    [Key.kdouble, Key.kdouble]
  exact ⟨(H1 Key Int dSum).1, h2.1, h2.2⟩
